import Mathlib

/-!
# Verification of the Seto Inland Sea ferry itinerary engine

Shallow embedding of the route grouping and duration derivation code of
`ferry-frontend-nextjs/src/lib/utils.ts` (functions `groupRoutesByPath` and
`calculateDuration`) and of the `isLimitedPeriod` flag computed in the
`RouteGroup` display component, together with proofs of the specified
properties.

Modelling conventions for the JavaScript semantics:
* JS numbers appearing here are integers or `NaN`; they are embedded as
  `Option Int` with `none` playing the role of `NaN` (and, for the running
  minimum fare, of the initial `Infinity`, see `fareLt`).  Comparisons
  involving `NaN` are false, arithmetic involving `NaN` yields `NaN`,
  exactly as in JS.
* `Number(s)` is embedded by `jsNumber` on the fragment whose values are
  computed here: the empty string converts to `0`, a nonempty string of
  ASCII digits to its value, and every other string to `NaN`.  Statements
  about inputs that parse carry `parseMinutes = some _` hypotheses, on
  which this fragment agrees exactly with JS.  Statements about inputs
  that do not parse are guarded by `timeNaN`, built from `strNumeric`, a
  recognizer of the full ECMAScript `StringNumericLiteral` grammar
  (whitespace trimming, signs, decimals, exponents, radix prefixes,
  `Infinity`): `timeNaN` holds only where the real conversion is `NaN`,
  and there `jsNumber` is `NaN` as well (`jsNumber_none_of_strNaN`), so
  the model also agrees with JS on that side.
* `String.prototype.split(sep)` for a single-character separator is embedded
  by `splitOnChar` on the character list of the string, matching JS
  semantics (`"".split(":") = [""]`, separators at the ends produce empty
  fragments).
* `Array.prototype.sort` is a stable sort by the supplied comparator; any
  two stable sorts by the same total preorder produce the same list, so it
  is embedded as `List.insertionSort`, which is stable.  The comparator
  `timeA.localeCompare(timeB)` is embedded as code-point lexicographic
  comparison (`lexLe`), which agrees with locale collation on the
  digit-and-colon strings compared here.
* JS `Map` with string keys preserves first-insertion order; it is embedded
  as a list of groups looked up by `routeKey`.
-/

/-- One sailing, the `FerryRoute` interface of `src/types/index.ts`. -/
structure FerryRoute where
  departure_port : String
  arrival_port : String
  departure_time : String
  arrival_time : String
  company : String
  ship_type : String
  allows_vehicles : Bool
  allows_bicycles : Bool
  adult_fare : String
  child_fare : String
  operating_days : String
  notes : Option String := none
deriving DecidableEq

/-- One itinerary group, the `RouteGroup` interface of `utils.ts`.
`minPrice` is embedded as `Option Nat`: `none` is the initial
`Infinity` sentinel that survives when no member fare parses. -/
structure RouteGroup where
  routeKey : String
  departure : String
  arrival : String
  schedules : List FerryRoute
  companies : List String
  minPrice : Option Nat
  totalSchedules : Nat
deriving DecidableEq

/-- The grouping key: the template literal
joining departure port and arrival port with a hyphen. -/
def routeKey (r : FerryRoute) : String :=
  r.departure_port ++ "-" ++ r.arrival_port

/-- Numeric value of an ASCII digit character. -/
def digitVal (c : Char) : Nat := c.toNat - 48

/-- Value of a list of ASCII digits read in base 10. -/
def digitsToNat (l : List Char) : Nat :=
  l.foldl (fun n c => n * 10 + digitVal c) 0

/-- Embeds `parseInt(route.adult_fare.replace(/[^\d]/g, ''))`: strip every
non-digit character and parse the remainder; an empty remainder gives
`NaN`, embedded as `none`. -/
def parseFare (s : String) : Option Nat :=
  let ds := s.toList.filter Char.isDigit
  if ds.isEmpty then none else some (digitsToNat ds)

/-- The test `adultFare < group.minPrice` of the source, under JS numeric
comparison: the left side is the fare parse (`none` = `NaN`, so the
comparison is false), the right side the running minimum (`none` =
`Infinity`, so any parsed fare compares below it). -/
def fareLt : Option Nat → Option Nat → Bool
  | none, _ => false
  | some _, none => true
  | some v, some m => v < m

/-- The fresh group installed by `groupMap.set(routeKey, {...})` when a key
is first seen. -/
def emptyGroup (r : FerryRoute) : RouteGroup :=
  { routeKey := routeKey r
    departure := r.departure_port
    arrival := r.arrival_port
    schedules := []
    companies := []
    minPrice := none
    totalSchedules := 0 }

/-- The mutations performed on the looked-up group for one route:
`schedules.push`, company dedup-append, running fare minimum, and
`totalSchedules++`. -/
def addRoute (g : RouteGroup) (r : FerryRoute) : RouteGroup :=
  { g with
    schedules := g.schedules ++ [r]
    companies :=
      if r.company ∈ g.companies then g.companies else g.companies ++ [r.company]
    minPrice :=
      if fareLt (parseFare r.adult_fare) g.minPrice then parseFare r.adult_fare
      else g.minPrice
    totalSchedules := g.totalSchedules + 1 }

/-- One iteration of the `routes.forEach` loop: create the group when its
key is absent, then mutate the group of the route's key. -/
def insertRoute (gs : List RouteGroup) (r : FerryRoute) : List RouteGroup :=
  if gs.any (fun g => g.routeKey == routeKey r) then
    gs.map (fun g => if g.routeKey == routeKey r then addRoute g r else g)
  else
    gs ++ [addRoute (emptyGroup r) r]

/-- The whole accumulation loop over the input, producing the groups in
first-insertion order (JS `Map` iteration order). -/
def buildGroups (routes : List FerryRoute) : List RouteGroup :=
  routes.foldl insertRoute []

/-- Embeds `departure_time.replace(':', '')`: a string-pattern `replace` removes
only the first occurrence of `':'`. -/
def removeFirstColon : List Char → List Char
  | [] => []
  | c :: cs => if c = ':' then cs else c :: removeFirstColon cs

/-- The sort key `route.departure_time.replace(':', '')` as a character
list. -/
def timeCode (s : String) : List Char :=
  removeFirstColon s.toList

/-- Code-point lexicographic `≤` on character lists: the embedding of a
non-negative `localeCompare` result on the strings compared here. -/
def lexLe : List Char → List Char → Bool
  | [], _ => true
  | _ :: _, [] => false
  | a :: as, b :: bs =>
    if a < b then true else if b < a then false else lexLe as bs

/-- The sort comparator of `group.schedules.sort`, as a relation. -/
def scheduleLe (a b : FerryRoute) : Prop :=
  lexLe (timeCode a.departure_time) (timeCode b.departure_time) = true

instance : DecidableRel scheduleLe := fun a b => by
  unfold scheduleLe; infer_instance

/-- The in-place `group.schedules.sort(...)` of the source: a stable sort
by `scheduleLe` (see the module docstring). -/
def sortGroup (g : RouteGroup) : RouteGroup :=
  { g with schedules := g.schedules.insertionSort scheduleLe }

/-- Embeds `groupRoutesByPath` of `utils.ts`: accumulate groups in first-seen key
order, then sort each group's schedules by departure time. -/
def groupRoutesByPath (routes : List FerryRoute) : List RouteGroup :=
  (buildGroups routes).map sortGroup

/-- JS `split` on a single-character separator, on character lists. -/
def splitOnChar (sep : Char) : List Char → List (List Char)
  | [] => [[]]
  | c :: cs =>
    if c = sep then [] :: splitOnChar sep cs
    else
      match splitOnChar sep cs with
      | [] => [[c]]
      | p :: ps => (c :: p) :: ps

/-- Embeds `Number(s)` on the fragment relevant here (see module docstring):
`"" ↦ 0`, nonempty digit strings to their value, all else to `NaN`. -/
def jsNumber (l : List Char) : Option Int :=
  if l.isEmpty then some 0
  else if l.all Char.isDigit then some (Int.ofNat (digitsToNat l)) else none

/-- JS addition with `NaN` propagation (`undefined` operands also reach
this as `none`, since `x + undefined` is `NaN`). -/
def jsAdd : Option Int → Option Int → Option Int
  | some a, some b => some (a + b)
  | _, _ => none

/-- JS multiplication with `NaN` propagation. -/
def jsMul : Option Int → Option Int → Option Int
  | some a, some b => some (a * b)
  | _, _ => none

/-- JS subtraction with `NaN` propagation. -/
def jsSub : Option Int → Option Int → Option Int
  | some a, some b => some (a - b)
  | _, _ => none

/-- JS `<` : false whenever an operand is `NaN`. -/
def jsLt : Option Int → Option Int → Bool
  | some a, some b => a < b
  | _, _ => false

/-- Embeds `Math.floor(x / 60)` for integer-or-`NaN` values: floor division. -/
def jsFloorDiv60 : Option Int → Option Int
  | some a => some (Int.fdiv a 60)
  | none => none

/-- Embeds `x % 60`: the JS remainder is the truncated remainder. -/
def jsMod60 : Option Int → Option Int
  | some a => some (Int.tmod a 60)
  | none => none

/-- Template-literal rendering of an integer-or-`NaN` value. -/
def jsToString : Option Int → String
  | none => "NaN"
  | some n => toString n

/-- Embeds `const [h, m] = s.split(':').map(Number); h * 60 + m` — the minutes
value of one time field.  Indexing past the end of the split gives
`undefined`, whose arithmetic is `NaN`, hence the `none` default. -/
def parseMinutes (s : String) : Option Int :=
  let parts := (splitOnChar ':' s.toList).map jsNumber
  jsAdd (jsMul (parts.getD 0 none) (some 60)) (parts.getD 1 none)

/-- The local `duration` of `calculateDuration`: arrival minutes, bumped by
24 hours when the comparison `arrMinutes < depMinutes` holds (false on
`NaN`), minus departure minutes. -/
def durationMinutes (departure arrival : String) : Option Int :=
  let depMinutes := parseMinutes departure
  let arrMinutes0 := parseMinutes arrival
  let arrMinutes :=
    if jsLt arrMinutes0 depMinutes then jsAdd arrMinutes0 (some (24 * 60))
    else arrMinutes0
  jsSub arrMinutes depMinutes

/-- Embeds `calculateDuration` of `utils.ts`.  The `try`/`catch` of the source
cannot fire on string arguments (none of `split`, `map(Number)`, numeric
operators or template literals throws), so the `'-'` branch is dead code
for string inputs and the body is embedded directly: `NaN` propagates
through the arithmetic into the rendered string. -/
def calculateDuration (departure arrival : String) : String :=
  let duration := durationMinutes departure arrival
  let hours := jsFloorDiv60 duration
  let minutes := jsMod60 duration
  if jsLt (some 0) hours then
    jsToString hours ++ "时" ++ jsToString minutes ++ "分"
  else
    jsToString minutes ++ "分"

/-- The limited-period flag of the `RouteGroup` component:
`routeGroup.schedules.some(s => s.operating_days === '期間限定')`. -/
def isLimitedPeriod (g : RouteGroup) : Bool :=
  g.schedules.any (fun s => s.operating_days == "期間限定")

/-- The exact character set removed by the JS `TrimString` operation on
`Number`'s argument: ECMAScript WhiteSpace and LineTerminator code
points. -/
def isStrWhite (c : Char) : Bool :=
  c.toNat == 0x9 || c.toNat == 0xA || c.toNat == 0xB || c.toNat == 0xC ||
  c.toNat == 0xD || c.toNat == 0x20 || c.toNat == 0xA0 || c.toNat == 0x1680 ||
  (decide (0x2000 ≤ c.toNat) && decide (c.toNat ≤ 0x200A)) ||
  c.toNat == 0x202F || c.toNat == 0x205F || c.toNat == 0x3000 ||
  c.toNat == 0x2028 || c.toNat == 0x2029 || c.toNat == 0xFEFF

/-- Leading and trailing JS whitespace removal. -/
def trimWhite (l : List Char) : List Char :=
  ((l.dropWhile isStrWhite).reverse.dropWhile isStrWhite).reverse

/-- Hexadecimal digit. -/
def isHexDigit (c : Char) : Bool :=
  c.isDigit || (decide ('a' ≤ c) && decide (c ≤ 'f')) ||
    (decide ('A' ≤ c) && decide (c ≤ 'F'))

/-- Octal digit. -/
def isOctDigit (c : Char) : Bool :=
  decide ('0' ≤ c) && decide (c ≤ '7')

/-- Binary digit. -/
def isBinDigit (c : Char) : Bool :=
  c == '0' || c == '1'

/-- The portion of the input before the first non-digit. -/
def intDigits (l : List Char) : Bool :=
  !(l.takeWhile Char.isDigit).isEmpty

/-- The rest of the input from the first non-digit on. -/
def afterDigits (l : List Char) : List Char :=
  l.dropWhile Char.isDigit

/-- ExponentPart content after the `e` or `E`: an optional sign followed
by at least one decimal digit. -/
def expBody : List Char → Bool
  | [] => false
  | c :: rest =>
    if c = '+' ∨ c = '-' then !rest.isEmpty && rest.all Char.isDigit
    else (c :: rest).all Char.isDigit

/-- A whole ExponentPart: `e` or `E` followed by `expBody`. -/
def expOk : List Char → Bool
  | [] => false
  | c :: rest => if c = 'e' ∨ c = 'E' then expBody rest else false

/-- ECMAScript `StrUnsignedDecimalLiteral` recognizer: `Infinity`, or
decimal digits with an optional fraction and optional exponent, with at
least one digit somewhere. -/
def unsignedDec (l : List Char) : Bool :=
  if l = "Infinity".toList then true
  else
    match afterDigits l with
    | [] => intDigits l
    | c :: rest2 =>
      if c = '.' then
        (intDigits l || intDigits rest2) &&
          ((afterDigits rest2).isEmpty || expOk (afterDigits rest2))
      else if c = 'e' ∨ c = 'E' then intDigits l && expBody rest2
      else false

/-- ECMAScript `StrNumericLiteral` recognizer for the trimmed string: an
optionally signed decimal literal, or a `0x`/`0o`/`0b`-prefixed
non-decimal integer. -/
def strNumericCore : List Char → Bool
  | [] => true
  | c :: rest =>
    if c = '+' ∨ c = '-' then unsignedDec rest
    else if c = '0' then
      match rest with
      | [] => true
      | d :: rest2 =>
        if d = 'x' ∨ d = 'X' then !rest2.isEmpty && rest2.all isHexDigit
        else if d = 'o' ∨ d = 'O' then !rest2.isEmpty && rest2.all isOctDigit
        else if d = 'b' ∨ d = 'B' then !rest2.isEmpty && rest2.all isBinDigit
        else unsignedDec (c :: rest)
    else unsignedDec (c :: rest)

/-- Decides whether JS `Number` converts this string to a number (the
empty or all-whitespace string converts to `0`). -/
def strNumeric (l : List Char) : Bool :=
  strNumericCore (trimWhite l)

/-- Holds exactly when JS `Number` yields `NaN` on this string. -/
def strNaN (l : List Char) : Bool := !strNumeric l

/-- Holds when the JS computation `hour * 60 + minute` for this time
field is `NaN`: the hour component fails numeric conversion, there is no
minute component (`undefined` arithmetic), or the minute component fails
conversion. -/
def timeNaN (s : String) : Bool :=
  let parts := splitOnChar ':' s.toList
  strNaN (parts.getD 0 []) || decide (parts.length < 2) || strNaN (parts.getD 1 [])

/-! ## Specification-side helpers -/

/-- One insert-if-new step of a first-seen-order accumulation. -/
def seenStep {α : Type} [DecidableEq α] (acc : List α) (x : α) : List α :=
  if x ∈ acc then acc else acc ++ [x]

/-- First-seen-order deduplication of a list. -/
def firstSeen {α : Type} [DecidableEq α] (l : List α) : List α :=
  l.foldl seenStep []

/-- The rows of the input carrying a given route key. -/
def matching (routes : List FerryRoute) (k : String) : List FerryRoute :=
  routes.filter (fun r => routeKey r == k)

/-- The running-minimum step performed on `minPrice` for one parsed fare. -/
def minStep (m v : Option Nat) : Option Nat :=
  if fareLt v m then v else m

/-- The group that the accumulation loop builds for key `k`, described
directly from the rows carrying that key: `none` when no row does, and
otherwise the fold of all carrying rows over the fresh group seeded from
the first of them. -/
def groupFor (routes : List FerryRoute) (k : String) : Option RouteGroup :=
  (matching routes k).head?.map
    (fun r0 => (matching routes k).foldl addRoute (emptyGroup r0))

/-- Lookup of a group by key, the embedding of `groupMap.get(key)`. -/
def lookupGroup (gs : List RouteGroup) (k : String) : Option RouteGroup :=
  gs.find? (fun g => g.routeKey == k)

/-- The (departure, arrival) pair of a row. -/
def pairOf (r : FerryRoute) : String × String :=
  (r.departure_port, r.arrival_port)

/-! ## Properties of the accumulation over one group -/

theorem foldl_addRoute_routeKey (rs : List FerryRoute) (g : RouteGroup) :
    (rs.foldl addRoute g).routeKey = g.routeKey := by
  induction rs generalizing g with
  | nil => rfl
  | cons r rs ih => simp [List.foldl_cons, ih, addRoute]

theorem foldl_addRoute_departure (rs : List FerryRoute) (g : RouteGroup) :
    (rs.foldl addRoute g).departure = g.departure := by
  induction rs generalizing g with
  | nil => rfl
  | cons r rs ih => simp [List.foldl_cons, ih, addRoute]

theorem foldl_addRoute_arrival (rs : List FerryRoute) (g : RouteGroup) :
    (rs.foldl addRoute g).arrival = g.arrival := by
  induction rs generalizing g with
  | nil => rfl
  | cons r rs ih => simp [List.foldl_cons, ih, addRoute]

theorem foldl_addRoute_schedules (rs : List FerryRoute) (g : RouteGroup) :
    (rs.foldl addRoute g).schedules = g.schedules ++ rs := by
  induction rs generalizing g with
  | nil => simp
  | cons r rs ih => simp [List.foldl_cons, ih, addRoute]

theorem foldl_addRoute_total (rs : List FerryRoute) (g : RouteGroup) :
    (rs.foldl addRoute g).totalSchedules = g.totalSchedules + rs.length := by
  induction rs generalizing g with
  | nil => simp
  | cons r rs ih => simp [List.foldl_cons, ih, addRoute]; omega

theorem foldl_addRoute_companies (rs : List FerryRoute) (g : RouteGroup) :
    (rs.foldl addRoute g).companies =
      (rs.map (fun r => r.company)).foldl seenStep g.companies := by
  induction rs generalizing g with
  | nil => rfl
  | cons r rs ih => simp [List.foldl_cons, ih, addRoute, seenStep]

theorem foldl_addRoute_minPrice (rs : List FerryRoute) (g : RouteGroup) :
    (rs.foldl addRoute g).minPrice =
      (rs.map (fun r => parseFare r.adult_fare)).foldl minStep g.minPrice := by
  induction rs generalizing g with
  | nil => rfl
  | cons r rs ih => simp [List.foldl_cons, ih, addRoute, minStep]

/-! ## Properties of first-seen accumulation -/

theorem mem_foldl_seenStep {α : Type} [DecidableEq α] (l : List α) :
    ∀ (acc : List α) (a : α), a ∈ l.foldl seenStep acc ↔ a ∈ acc ∨ a ∈ l := by
  induction l with
  | nil => simp
  | cons x l ih =>
    intro acc a
    simp only [List.foldl_cons, ih, seenStep]
    by_cases hx : x ∈ acc
    · simp only [if_pos hx, List.mem_cons]
      constructor
      · rintro (h | h)
        · exact Or.inl h
        · exact Or.inr (Or.inr h)
      · rintro (h | h | h)
        · exact Or.inl h
        · exact Or.inl (h ▸ hx)
        · exact Or.inr h
    · simp only [if_neg hx, List.mem_append, List.mem_singleton, List.mem_cons]
      tauto

theorem nodup_foldl_seenStep {α : Type} [DecidableEq α] (l : List α) :
    ∀ acc : List α, acc.Nodup → (l.foldl seenStep acc).Nodup := by
  induction l with
  | nil => exact fun _ h => h
  | cons x l ih =>
    intro acc hacc
    simp only [List.foldl_cons, seenStep]
    by_cases hx : x ∈ acc
    · rw [if_pos hx]; exact ih acc hacc
    · rw [if_neg hx]
      refine ih _ ?_
      simp [List.nodup_append, hacc, hx]

theorem mem_firstSeen {α : Type} [DecidableEq α] (l : List α) (a : α) :
    a ∈ firstSeen l ↔ a ∈ l := by
  simpa [firstSeen] using mem_foldl_seenStep l [] a

theorem nodup_firstSeen {α : Type} [DecidableEq α] (l : List α) :
    (firstSeen l).Nodup :=
  nodup_foldl_seenStep l [] List.nodup_nil

/-! ## Key structure of the accumulated group list -/

theorem addRoute_routeKey (g : RouteGroup) (r : FerryRoute) :
    (addRoute g r).routeKey = g.routeKey := rfl

theorem insertRoute_keys (gs : List RouteGroup) (r : FerryRoute) :
    (insertRoute gs r).map (fun g => g.routeKey) =
      seenStep (gs.map (fun g => g.routeKey)) (routeKey r) := by
  unfold insertRoute seenStep
  by_cases h : routeKey r ∈ gs.map (fun g => g.routeKey)
  · have hany : gs.any (fun g => g.routeKey == routeKey r) = true := by
      simp only [List.any_eq_true, beq_iff_eq]
      obtain ⟨g, hg, hk⟩ := List.mem_map.mp h
      exact ⟨g, hg, hk⟩
    simp only [hany, if_pos h, if_true, List.map_map]
    refine List.map_congr_left fun g _ => ?_
    simp only [Function.comp_apply]
    split <;> rfl
  · have hany : gs.any (fun g => g.routeKey == routeKey r) = false := by
      rw [List.any_eq_false]
      intro g hg
      simp only [beq_iff_eq]
      exact fun hk => h (List.mem_map.mpr ⟨g, hg, hk⟩)
    simp only [hany, if_neg h, Bool.false_eq_true, if_false, List.map_append]
    rfl

theorem buildGroups_append_singleton (rs : List FerryRoute) (r : FerryRoute) :
    buildGroups (rs ++ [r]) = insertRoute (buildGroups rs) r := by
  rw [buildGroups, List.foldl_append, List.foldl_cons, List.foldl_nil]
  rfl

theorem buildGroups_keys (routes : List FerryRoute) :
    (buildGroups routes).map (fun g => g.routeKey) =
      firstSeen (routes.map routeKey) := by
  induction routes using List.reverseRecOn with
  | nil => rfl
  | append_singleton rs r ih =>
    rw [buildGroups_append_singleton, insertRoute_keys, ih]
    simp only [firstSeen, List.map_append, List.map_cons, List.map_nil,
      List.foldl_append, List.foldl_cons, List.foldl_nil]

theorem nodup_buildGroups_keys (routes : List FerryRoute) :
    ((buildGroups routes).map (fun g => g.routeKey)).Nodup := by
  rw [buildGroups_keys]
  exact nodup_firstSeen _

theorem matching_append_of_eq {r : FerryRoute} {k : String}
    (rs : List FerryRoute) (h : routeKey r = k) :
    matching (rs ++ [r]) k = matching rs k ++ [r] := by
  simp [matching, List.filter_append, h]

theorem matching_append_of_ne {r : FerryRoute} {k : String}
    (rs : List FerryRoute) (h : routeKey r ≠ k) :
    matching (rs ++ [r]) k = matching rs k := by
  simp [matching, List.filter_append, h]

theorem matching_eq_nil_iff (rs : List FerryRoute) (k : String) :
    matching rs k = [] ↔ k ∉ rs.map routeKey := by
  constructor
  · intro h hk
    obtain ⟨r, hr, hrk⟩ := List.mem_map.mp hk
    have : r ∈ matching rs k := by
      simp [matching, List.mem_filter, hr, hrk]
    simp [h] at this
  · intro h
    rw [matching, List.filter_eq_nil_iff]
    intro r hr
    simp only [beq_iff_eq]
    exact fun hrk => h (List.mem_map.mpr ⟨r, hr, hrk⟩)

theorem mem_matching_key {rs : List FerryRoute} {k : String} {r : FerryRoute}
    (h : r ∈ matching rs k) : routeKey r = k := by
  have := (List.mem_filter.mp h).2
  simpa using this

theorem groupFor_routeKey {rs : List FerryRoute} {k : String} {g : RouteGroup}
    (h : groupFor rs k = some g) : g.routeKey = k := by
  unfold groupFor at h
  cases hm : matching rs k with
  | nil => rw [hm] at h; exact absurd h (by simp)
  | cons r0 rest =>
    rw [hm] at h
    have hr0 : r0 ∈ matching rs k := by rw [hm]; exact List.mem_cons_self _ _
    have := mem_matching_key hr0
    simp only [List.head?_cons, Option.map_some', Option.some.injEq] at h
    rw [← h, foldl_addRoute_routeKey]
    exact this

theorem groupFor_of_matching_cons {rs : List FerryRoute} {k : String}
    {r0 : FerryRoute} {rest : List FerryRoute} (hm : matching rs k = r0 :: rest) :
    groupFor rs k = some ((r0 :: rest).foldl addRoute (emptyGroup r0)) := by
  unfold groupFor
  rw [hm, List.head?_cons, Option.map_some']

theorem groupFor_append_of_eq {r : FerryRoute} {k : String} {r0 : FerryRoute}
    {rest : List FerryRoute} (rs : List FerryRoute) (h : routeKey r = k)
    (hm : matching rs k = r0 :: rest) :
    groupFor (rs ++ [r]) k =
      some (addRoute ((r0 :: rest).foldl addRoute (emptyGroup r0)) r) := by
  unfold groupFor
  rw [matching_append_of_eq rs h, hm, List.cons_append, List.head?_cons,
    Option.map_some', List.foldl_cons, List.foldl_append, List.foldl_cons,
    List.foldl_nil, List.foldl_cons]

theorem groupFor_append_of_nil {r : FerryRoute} {k : String}
    (rs : List FerryRoute) (h : routeKey r = k) (hm : matching rs k = []) :
    groupFor (rs ++ [r]) k = some (addRoute (emptyGroup r) r) := by
  unfold groupFor
  rw [matching_append_of_eq rs h, hm, List.nil_append, List.head?_cons,
    Option.map_some', List.foldl_cons, List.foldl_nil]

theorem buildGroups_any_iff (rs : List FerryRoute) (k : String) :
    (buildGroups rs).any (fun g => g.routeKey == k) = true ↔ k ∈ rs.map routeKey := by
  rw [List.any_eq_true]
  constructor
  · rintro ⟨g, hg, hk⟩
    rw [beq_iff_eq] at hk
    have : k ∈ (buildGroups rs).map (fun g => g.routeKey) :=
      List.mem_map.mpr ⟨g, hg, hk⟩
    rw [buildGroups_keys, mem_firstSeen] at this
    exact this
  · intro h
    have : k ∈ (buildGroups rs).map (fun g => g.routeKey) := by
      rw [buildGroups_keys, mem_firstSeen]; exact h
    obtain ⟨g, hg, hk⟩ := List.mem_map.mp this
    exact ⟨g, hg, beq_iff_eq.mpr hk⟩

theorem groupFor_append_of_ne {r : FerryRoute} {k : String}
    (rs : List FerryRoute) (h : routeKey r ≠ k) :
    groupFor (rs ++ [r]) k = groupFor rs k := by
  unfold groupFor
  rw [matching_append_of_ne rs h]

theorem lookupGroup_buildGroups (routes : List FerryRoute) (k : String) :
    lookupGroup (buildGroups routes) k = groupFor routes k := by
  induction routes using List.reverseRecOn with
  | nil => rfl
  | append_singleton rs r ih =>
    rw [buildGroups_append_singleton]
    by_cases hk : routeKey r = k
    · subst hk
      by_cases hmem : routeKey r ∈ rs.map routeKey
      · -- the key already has a group: it is updated in place
        have hany := (buildGroups_any_iff rs (routeKey r)).mpr hmem
        rw [insertRoute, if_pos hany]
        unfold lookupGroup
        rw [List.find?_map]
        have hpf :
            ((fun g => g.routeKey == routeKey r) ∘
              (fun g => if g.routeKey == routeKey r then addRoute g r else g)) =
            fun g : RouteGroup => g.routeKey == routeKey r := by
          funext g
          simp only [Function.comp_apply]
          split <;> rfl
        rw [hpf]
        have hfind : (buildGroups rs).find? (fun g => g.routeKey == routeKey r) =
            groupFor rs (routeKey r) := ih
        rw [hfind]
        obtain ⟨r0, rest, hm⟩ : ∃ r0 rest, matching rs (routeKey r) = r0 :: rest := by
          cases hmc : matching rs (routeKey r) with
          | nil => exact absurd ((matching_eq_nil_iff rs _).mp hmc) (by simpa using hmem)
          | cons a b => exact ⟨a, b, rfl⟩
        have hr0 : routeKey r0 = routeKey r :=
          mem_matching_key (by rw [hm]; exact List.mem_cons_self _ _)
        have hGkey : ((r0 :: rest).foldl addRoute (emptyGroup r0)).routeKey = routeKey r := by
          rw [foldl_addRoute_routeKey]; exact hr0
        rw [groupFor_of_matching_cons hm, groupFor_append_of_eq rs rfl hm,
          Option.map_some']
        have hcond : (((r0 :: rest).foldl addRoute (emptyGroup r0)).routeKey ==
            routeKey r) = true := beq_iff_eq.mpr hGkey
        rw [if_pos hcond]
      · -- a fresh key: a new group is appended
        have hmnil : matching rs (routeKey r) = [] := (matching_eq_nil_iff rs _).mpr hmem
        have hany : ¬ ((buildGroups rs).any (fun g => g.routeKey == routeKey r)) = true := by
          intro h
          exact hmem ((buildGroups_any_iff rs _).mp h)
        rw [insertRoute, if_neg hany]
        unfold lookupGroup
        rw [List.find?_append]
        have h1 : (buildGroups rs).find? (fun g => g.routeKey == routeKey r) = none := by
          have := ih
          unfold lookupGroup at this
          rw [this]
          unfold groupFor
          rw [hmnil]
          rfl
        rw [h1, Option.none_or]
        have hsing : ((addRoute (emptyGroup r) r).routeKey == routeKey r) = true :=
          beq_iff_eq.mpr rfl
        rw [groupFor_append_of_nil rs rfl hmnil]
        simp only [List.find?_cons, hsing, if_true]
    · -- a different key: the group for k is untouched
      rw [insertRoute]
      by_cases hany : (buildGroups rs).any (fun g => g.routeKey == routeKey r) = true
      · rw [if_pos hany]
        unfold lookupGroup
        rw [List.find?_map]
        have hpf :
            ((fun g => g.routeKey == k) ∘
              (fun g => if g.routeKey == routeKey r then addRoute g r else g)) =
            fun g : RouteGroup => g.routeKey == k := by
          funext g
          simp only [Function.comp_apply]
          split <;> rfl
        rw [hpf]
        have hfind : (buildGroups rs).find? (fun g => g.routeKey == k) =
            groupFor rs k := ih
        rw [hfind, groupFor_append_of_ne rs hk]
        cases hG : groupFor rs k with
        | none => rfl
        | some G =>
          have hGk : G.routeKey = k := groupFor_routeKey hG
          have : (G.routeKey == routeKey r) = false := by
            rw [beq_eq_false_iff_ne, hGk]
            exact fun h => hk h.symm
          simp only [Option.map_some', this, Bool.false_eq_true, if_false]
      · rw [if_neg hany]
        unfold lookupGroup
        rw [List.find?_append]
        have h2 : List.find? (fun g => g.routeKey == k) [addRoute (emptyGroup r) r] = none := by
          have : ((addRoute (emptyGroup r) r).routeKey == k) = false := by
            rw [beq_eq_false_iff_ne]
            exact hk
          simp only [List.find?_cons, this, Bool.false_eq_true, if_false, List.find?_nil]
        rw [h2]
        have hfind : (buildGroups rs).find? (fun g => g.routeKey == k) =
            groupFor rs k := ih
        rw [Option.or_none, hfind, groupFor_append_of_ne rs hk]

/-! ## Every accumulated group is determined by its key -/

theorem find?_eq_some_of_mem_nodup {gs : List RouteGroup} {g : RouteGroup}
    (hg : g ∈ gs) (hnd : (gs.map (fun g => g.routeKey)).Nodup) :
    gs.find? (fun g2 => g2.routeKey == g.routeKey) = some g := by
  induction gs with
  | nil => cases hg
  | cons h t ih =>
    rw [List.map_cons, List.nodup_cons] at hnd
    rcases List.mem_cons.mp hg with rfl | hgt
    · exact List.find?_cons_of_pos _ (beq_iff_eq.mpr rfl)
    · have hne : (h.routeKey == g.routeKey) = false := by
        rw [beq_eq_false_iff_ne]
        intro he
        exact hnd.1 (he ▸ List.mem_map.mpr ⟨g, hgt, rfl⟩)
      rw [List.find?_cons_of_neg _ (by simp [hne])]
      exact ih hgt hnd.2

theorem mem_buildGroups_eq_groupFor {routes : List FerryRoute} {g : RouteGroup}
    (hg : g ∈ buildGroups routes) : groupFor routes g.routeKey = some g := by
  rw [← lookupGroup_buildGroups]
  unfold lookupGroup
  exact find?_eq_some_of_mem_nodup hg (nodup_buildGroups_keys routes)

theorem sortGroup_routeKey (g : RouteGroup) : (sortGroup g).routeKey = g.routeKey := rfl

theorem output_keys (routes : List FerryRoute) :
    (groupRoutesByPath routes).map (fun g => g.routeKey) =
      firstSeen (routes.map routeKey) := by
  rw [groupRoutesByPath, List.map_map]
  exact buildGroups_keys routes

/-- Full characterization of any group emitted by `groupRoutesByPath`:
all of its fields are determined by the rows of the input that carry the
group's key, in input order. -/
theorem output_group_spec {routes : List FerryRoute} {g : RouteGroup}
    (hg : g ∈ groupRoutesByPath routes) :
    g.schedules = (matching routes g.routeKey).insertionSort scheduleLe ∧
    g.totalSchedules = (matching routes g.routeKey).length ∧
    g.companies = firstSeen ((matching routes g.routeKey).map (fun r => r.company)) ∧
    g.minPrice =
      ((matching routes g.routeKey).map (fun r => parseFare r.adult_fare)).foldl
        minStep none ∧
    ∃ r0 rest, matching routes g.routeKey = r0 :: rest ∧
      g.departure = r0.departure_port ∧ g.arrival = r0.arrival_port := by
  rw [groupRoutesByPath] at hg
  obtain ⟨g0, hg0, rfl⟩ := List.mem_map.mp hg
  rw [sortGroup_routeKey]
  have hchar := mem_buildGroups_eq_groupFor hg0
  unfold groupFor at hchar
  cases hm : matching routes g0.routeKey with
  | nil => rw [hm] at hchar; exact absurd hchar (by simp)
  | cons r0 rest =>
    rw [hm, List.head?_cons, Option.map_some', Option.some.injEq] at hchar
    refine ⟨?_, ?_, ?_, ?_, r0, rest, rfl, ?_, ?_⟩
    · show (sortGroup g0).schedules = _
      rw [sortGroup]
      have : g0.schedules = r0 :: rest := by
        rw [← hchar, foldl_addRoute_schedules]
        rfl
      rw [this]
    · show g0.totalSchedules = _
      rw [← hchar, foldl_addRoute_total]
      show 0 + _ = _
      rw [Nat.zero_add]
    · show g0.companies = _
      rw [← hchar, foldl_addRoute_companies]
      rfl
    · show g0.minPrice = _
      rw [← hchar, foldl_addRoute_minPrice]
      rfl
    · show g0.departure = _
      rw [← hchar, foldl_addRoute_departure]
      rfl
    · show g0.arrival = _
      rw [← hchar, foldl_addRoute_arrival]
      rfl

/-! ## Characterization of the running fare minimum -/

/-- The pure running-minimum step on parsed fares. -/
def natMinStep (m x : Nat) : Nat := if x < m then x else m

theorem foldl_minStep_filterMap (vs : List (Option Nat)) :
    ∀ acc, vs.foldl minStep acc =
      (vs.filterMap id).foldl (fun m x => minStep m (some x)) acc := by
  induction vs with
  | nil => intro acc; rfl
  | cons v vs ih =>
    intro acc
    cases v with
    | none =>
      have hstep : minStep acc none = acc := by
        cases acc <;> simp [minStep, fareLt]
      rw [List.foldl_cons, hstep, List.filterMap_cons]
      exact ih acc
    | some x =>
      rw [List.foldl_cons, List.filterMap_cons]
      simp only [id]
      rw [List.foldl_cons]
      exact ih _

theorem foldl_stepO_some (l : List Nat) :
    ∀ m, l.foldl (fun m x => minStep m (some x)) (some m) =
      some (l.foldl natMinStep m) := by
  induction l with
  | nil => intro m; rfl
  | cons x l ih =>
    intro m
    rw [List.foldl_cons, List.foldl_cons]
    have : minStep (some m) (some x) = some (natMinStep m x) := by
      by_cases h : x < m <;> simp [minStep, fareLt, natMinStep, h]
    rw [this, ih]

theorem natfold_mem_and_lb (l : List Nat) :
    ∀ m, l.foldl natMinStep m ∈ m :: l ∧ ∀ x ∈ m :: l, l.foldl natMinStep m ≤ x := by
  induction l with
  | nil => intro m; simp
  | cons x l ih =>
    intro m
    rw [List.foldl_cons]
    obtain ⟨hmem, hlb⟩ := ih (natMinStep m x)
    constructor
    · rcases List.mem_cons.mp hmem with h | h
      · rw [h]
        unfold natMinStep
        split
        · exact List.mem_cons_of_mem _ (List.mem_cons_self _ _)
        · exact List.mem_cons_self _ _
      · exact List.mem_cons_of_mem _ (List.mem_cons_of_mem _ h)
    · intro y hy
      have h1 : l.foldl natMinStep (natMinStep m x) ≤ natMinStep m x :=
        hlb _ (List.mem_cons_self _ _)
      have hlm : natMinStep m x ≤ m := by unfold natMinStep; split <;> omega
      have hlx : natMinStep m x ≤ x := by unfold natMinStep; split <;> omega
      have hstep_le_m : l.foldl natMinStep (natMinStep m x) ≤ m := le_trans h1 hlm
      have hstep_le_x : l.foldl natMinStep (natMinStep m x) ≤ x := le_trans h1 hlx
      rcases List.mem_cons.mp hy with rfl | hy2
      · exact hstep_le_m
      · rcases List.mem_cons.mp hy2 with rfl | hy3
        · exact hstep_le_x
        · exact hlb _ (List.mem_cons_of_mem _ hy3)

theorem foldl_minStep_none_iff (vs : List (Option Nat)) :
    vs.foldl minStep none = none ↔ vs.filterMap id = [] := by
  rw [foldl_minStep_filterMap]
  cases hf : vs.filterMap id with
  | nil => simp
  | cons x l =>
    rw [List.foldl_cons]
    have : minStep none (some x) = some x := by simp [minStep, fareLt]
    rw [this, foldl_stepO_some]
    simp

theorem foldl_minStep_some_iff (vs : List (Option Nat)) (n : Nat) :
    vs.foldl minStep none = some n ↔
      n ∈ vs.filterMap id ∧ ∀ m ∈ vs.filterMap id, n ≤ m := by
  rw [foldl_minStep_filterMap]
  cases hf : vs.filterMap id with
  | nil => simp
  | cons x l =>
    rw [List.foldl_cons]
    have hx : minStep none (some x) = some x := by simp [minStep, fareLt]
    rw [hx, foldl_stepO_some]
    obtain ⟨hmem, hlb⟩ := natfold_mem_and_lb l x
    constructor
    · rintro h
      simp only [Option.some.injEq] at h
      subst h
      exact ⟨hmem, hlb⟩
    · rintro ⟨h1, h2⟩
      have hle1 : l.foldl natMinStep x ≤ n := hlb n h1
      have hle2 : n ≤ l.foldl natMinStep x := h2 _ hmem
      simp only [Option.some.injEq]
      omega

/-! ## The sort comparator: totality, transitivity -/

theorem lexLe_total : ∀ a b : List Char, lexLe a b = true ∨ lexLe b a = true := by
  intro a
  induction a with
  | nil => intro b; left; rfl
  | cons x xs ih =>
    intro b
    cases b with
    | nil => right; rfl
    | cons y ys =>
      rcases lt_trichotomy x y with h | h | h
      · left; simp [lexLe, h]
      · subst h
        rcases ih ys with h2 | h2
        · left; simp [lexLe, lt_irrefl, h2]
        · right; simp [lexLe, lt_irrefl, h2]
      · right; simp [lexLe, h]

theorem lexLe_trans :
    ∀ a b c : List Char, lexLe a b = true → lexLe b c = true → lexLe a c = true := by
  intro a
  induction a with
  | nil => intro _ _ _ _; rfl
  | cons x xs ih =>
    intro b c hab hbc
    cases b with
    | nil => simp [lexLe] at hab
    | cons y ys =>
      cases c with
      | nil => simp [lexLe] at hbc
      | cons z zs =>
        simp only [lexLe] at hab hbc ⊢
        rcases lt_trichotomy x y with hxy | hxy | hxy
        · rcases lt_trichotomy y z with hyz | hyz | hyz
          · simp [lt_trans hxy hyz]
          · subst hyz; simp [hxy]
          · rw [if_neg (lt_asymm hyz), if_pos hyz] at hbc; cases hbc
        · subst hxy
          rw [if_neg (lt_irrefl x), if_neg (lt_irrefl x)] at hab
          rcases lt_trichotomy x z with hxz | hxz | hxz
          · simp [hxz]
          · subst hxz
            rw [if_neg (lt_irrefl x), if_neg (lt_irrefl x)] at hbc ⊢
            exact ih ys zs hab hbc
          · rw [if_neg (lt_asymm hxz), if_pos hxz] at hbc; cases hbc
        · rw [if_neg (lt_asymm hxy), if_pos hxy] at hab; cases hab

instance : IsTotal FerryRoute scheduleLe :=
  ⟨fun a b => lexLe_total (timeCode a.departure_time) (timeCode b.departure_time)⟩

instance : IsTrans FerryRoute scheduleLe :=
  ⟨fun _ _ _ => lexLe_trans _ _ _⟩

/-! ## Lexicographic order on equal-length digit strings is numeric order -/

theorem digitsToNat_cons (c : Char) (l : List Char) :
    digitsToNat (c :: l) = digitVal c * 10 ^ l.length + digitsToNat l := by
  have haux : ∀ (l : List Char) (a : Nat),
      l.foldl (fun n c => n * 10 + digitVal c) a =
        a * 10 ^ l.length + l.foldl (fun n c => n * 10 + digitVal c) 0 := by
    intro l
    induction l with
    | nil => intro a; simp
    | cons d l ih =>
      intro a
      rw [List.foldl_cons, List.foldl_cons, ih (a * 10 + digitVal d), ih (0 * 10 + digitVal d)]
      ring_nf
      simp [List.length_cons, pow_succ]
      ring
  rw [digitsToNat, List.foldl_cons, haux, digitsToNat]
  simp

theorem digitVal_lt_ten {c : Char} (h : c.isDigit = true) : digitVal c < 10 := by
  unfold Char.isDigit at h
  unfold digitVal
  simp only [Bool.and_eq_true, decide_eq_true_eq] at h
  have h2 := h.2
  have : c.toNat ≤ 57 := by
    unfold Char.toNat
    exact h2
  omega

theorem digitsToNat_lt {l : List Char} (h : ∀ c ∈ l, c.isDigit = true) :
    digitsToNat l < 10 ^ l.length := by
  induction l with
  | nil => simp [digitsToNat]
  | cons c l ih =>
    rw [digitsToNat_cons, List.length_cons, pow_succ]
    have h1 : digitVal c < 10 := digitVal_lt_ten (h c (List.mem_cons_self _ _))
    have h2 : digitsToNat l < 10 ^ l.length := ih fun d hd => h d (List.mem_cons_of_mem _ hd)
    have : digitVal c * 10 ^ l.length ≤ 9 * 10 ^ l.length := by
      apply Nat.mul_le_mul_right
      omega
    omega

theorem digit_lt_iff {c d : Char} (hc : c.isDigit = true) (hd : d.isDigit = true) :
    c < d ↔ digitVal c < digitVal d := by
  unfold Char.isDigit at hc hd
  simp only [Bool.and_eq_true, decide_eq_true_eq] at hc hd
  have h1 : (48 : UInt32) ≤ c.val := hc.1
  have h2 : (48 : UInt32) ≤ d.val := hd.1
  have hlt : c < d ↔ c.val.toNat < d.val.toNat := Iff.rfl
  have hc48 : 48 ≤ c.val.toNat := h1
  have hd48 : 48 ≤ d.val.toNat := h2
  rw [hlt]
  unfold digitVal Char.toNat
  omega

theorem lexLe_digits_iff :
    ∀ a b : List Char, a.length = b.length →
      (∀ c ∈ a, c.isDigit = true) → (∀ c ∈ b, c.isDigit = true) →
      (lexLe a b = true ↔ digitsToNat a ≤ digitsToNat b) := by
  intro a
  induction a with
  | nil =>
    intro b hlen _ _
    have : b = [] := List.length_eq_zero.mp hlen.symm
    subst this
    simp [lexLe, digitsToNat]
  | cons x xs ih =>
    intro b hlen ha hb
    cases b with
    | nil => simp at hlen
    | cons y ys =>
      have hlen2 : xs.length = ys.length := by simpa using hlen
      have hx : x.isDigit = true := ha x (List.mem_cons_self _ _)
      have hy : y.isDigit = true := hb y (List.mem_cons_self _ _)
      have hxs : ∀ c ∈ xs, c.isDigit = true := fun c hc => ha c (List.mem_cons_of_mem _ hc)
      have hys : ∀ c ∈ ys, c.isDigit = true := fun c hc => hb c (List.mem_cons_of_mem _ hc)
      rw [digitsToNat_cons, digitsToNat_cons, hlen2]
      have hxbound : digitsToNat xs < 10 ^ ys.length := hlen2 ▸ digitsToNat_lt hxs
      have hybound : digitsToNat ys < 10 ^ ys.length := digitsToNat_lt hys
      rcases lt_trichotomy x y with hxy | hxy | hxy
      · have hv : digitVal x < digitVal y := (digit_lt_iff hx hy).mp hxy
        have : lexLe (x :: xs) (y :: ys) = true := by simp [lexLe, hxy]
        rw [this]
        simp only [true_iff]
        have : (digitVal x + 1) * 10 ^ ys.length ≤ digitVal y * 10 ^ ys.length :=
          Nat.mul_le_mul_right _ (by omega)
        nlinarith
      · subst hxy
        have hstep : lexLe (x :: xs) (x :: ys) = lexLe xs ys := by
          simp [lexLe, lt_irrefl]
        rw [hstep, ih ys hlen2 hxs hys]
        omega
      · have hv : digitVal y < digitVal x := (digit_lt_iff hy hx).mp hxy
        have hlex : lexLe (x :: xs) (y :: ys) = false := by
          simp [lexLe, hxy, lt_asymm hxy]
        rw [hlex]
        have : (digitVal y + 1) * 10 ^ ys.length ≤ digitVal x * 10 ^ ys.length :=
          Nat.mul_le_mul_right _ (by omega)
        constructor
        · intro h; cases h
        · intro h
          exfalso
          nlinarith

/-! ## Zero-padded clock times and their minute values -/

/-- Decides whether a departure-time string is a canonical zero-padded
clock time: exactly two digits, a colon, and two digits making a minute
value below 60. -/
def isPaddedTime (s : String) : Bool :=
  match s.toList with
  | [h1, h2, c, m1, m2] =>
    h1.isDigit && h2.isDigit && (c == ':') && m1.isDigit && m2.isDigit &&
      decide (digitVal m1 * 10 + digitVal m2 < 60)
  | _ => false

/-- Minute-of-day value of a clock time, for the `HH:MM` and `H:MM`
shapes appearing in stored data (0 for other shapes). -/
def minuteOfDay (s : String) : Nat :=
  match s.toList with
  | [h1, h2, _, m1, m2] =>
    (digitVal h1 * 10 + digitVal h2) * 60 + (digitVal m1 * 10 + digitVal m2)
  | [h1, _, m1, m2] => digitVal h1 * 60 + (digitVal m1 * 10 + digitVal m2)
  | _ => 0

theorem paddedTime_spec {s : String} (h : isPaddedTime s = true) :
    ∃ h1 h2 m1 m2, s.toList = [h1, h2, ':', m1, m2] ∧
      h1.isDigit = true ∧ h2.isDigit = true ∧ m1.isDigit = true ∧ m2.isDigit = true ∧
      digitVal m1 * 10 + digitVal m2 < 60 := by
  unfold isPaddedTime at h
  rcases hl : s.toList with _ | ⟨c1, _ | ⟨c2, _ | ⟨c3, _ | ⟨c4, _ | ⟨c5, _ | ⟨c6, tl⟩⟩⟩⟩⟩⟩ <;>
    rw [hl] at h
  · exact absurd h (by simp)
  · exact absurd h (by simp)
  · exact absurd h (by simp)
  · exact absurd h (by simp)
  · exact absurd h (by simp)
  · simp only [Bool.and_eq_true, beq_iff_eq, decide_eq_true_eq] at h
    obtain ⟨⟨⟨⟨⟨h1d, h2d⟩, hcol⟩, h4d⟩, h5d⟩, hm⟩ := h
    subst hcol
    exact ⟨c1, c2, c4, c5, rfl, h1d, h2d, h4d, h5d, hm⟩
  · exact absurd h (by simp)

theorem timeCode_of_padded {s : String} {h1 h2 m1 m2 : Char}
    (hl : s.toList = [h1, h2, ':', m1, m2]) (hd : h1.isDigit = true)
    (hd2 : h2.isDigit = true) :
    timeCode s = [h1, h2, m1, m2] := by
  have hcolon1 : h1 ≠ ':' := by
    intro he; subst he; exact absurd hd (by decide)
  have hcolon2 : h2 ≠ ':' := by
    intro he; subst he; exact absurd hd2 (by decide)
  rw [timeCode, hl]
  simp [removeFirstColon, hcolon1, hcolon2]

theorem minuteOfDay_of_padded {s : String} {h1 h2 m1 m2 : Char}
    (hl : s.toList = [h1, h2, ':', m1, m2]) :
    minuteOfDay s =
      (digitVal h1 * 10 + digitVal h2) * 60 + (digitVal m1 * 10 + digitVal m2) := by
  unfold minuteOfDay
  rw [hl]

theorem scheduleLe_iff_minute {a b : FerryRoute}
    (hpa : isPaddedTime a.departure_time = true)
    (hpb : isPaddedTime b.departure_time = true) :
    scheduleLe a b ↔ minuteOfDay a.departure_time ≤ minuteOfDay b.departure_time := by
  obtain ⟨h1, h2, m1, m2, hla, ha1, ha2, ha3, ha4, ham⟩ := paddedTime_spec hpa
  obtain ⟨k1, k2, n1, n2, hlb, hb1, hb2, hb3, hb4, hbm⟩ := paddedTime_spec hpb
  rw [scheduleLe, timeCode_of_padded hla ha1 ha2, timeCode_of_padded hlb hb1 hb2]
  have hall1 : ∀ c ∈ [h1, h2, m1, m2], c.isDigit = true := by
    intro c hc
    simp only [List.mem_cons, List.not_mem_nil, or_false] at hc
    rcases hc with rfl | rfl | rfl | rfl
    exacts [ha1, ha2, ha3, ha4]
  have hall2 : ∀ c ∈ [k1, k2, n1, n2], c.isDigit = true := by
    intro c hc
    simp only [List.mem_cons, List.not_mem_nil, or_false] at hc
    rcases hc with rfl | rfl | rfl | rfl
    exacts [hb1, hb2, hb3, hb4]
  rw [lexLe_digits_iff [h1, h2, m1, m2] [k1, k2, n1, n2] rfl hall1 hall2]
  have hva : digitsToNat [h1, h2, m1, m2] =
      ((digitVal h1 * 10 + digitVal h2) * 100) + (digitVal m1 * 10 + digitVal m2) := by
    simp [digitsToNat, List.foldl]; ring
  have hvb : digitsToNat [k1, k2, n1, n2] =
      ((digitVal k1 * 10 + digitVal k2) * 100) + (digitVal n1 * 10 + digitVal n2) := by
    simp [digitsToNat, List.foldl]; ring
  rw [hva, hvb, minuteOfDay_of_padded hla, minuteOfDay_of_padded hlb]
  omega

/-! ## Duration derivation -/

/-- Reference rendering of a non-negative number of minutes, as the spec
describes it: `H时M分` when at least one full hour, else `M分`. -/
def renderDuration (n : Nat) : String :=
  if 0 < n / 60 then toString (n / 60) ++ "时" ++ toString (n % 60) ++ "分"
  else toString (n % 60) ++ "分"

theorem jsLt_none_right (x : Option Int) : jsLt x none = false := by
  cases x <;> rfl

theorem jsLt_none_left (x : Option Int) : jsLt none x = false := by
  cases x <;> rfl

theorem jsSub_none_right (x : Option Int) : jsSub x none = none := by
  cases x <;> rfl

theorem jsSub_none_left (x : Option Int) : jsSub none x = none := by
  cases x <;> rfl

/-- With both times parsed and in clock range, the internal `duration`
value is exactly the cross-midnight difference `(a - d) % 1440`. -/
theorem durationMinutes_eq_emod {dep arr : String} {d a : Int}
    (hd : parseMinutes dep = some d) (ha : parseMinutes arr = some a)
    (hd0 : 0 ≤ d) (hd1 : d < 1440) (ha0 : 0 ≤ a) (ha1 : a < 1440) :
    durationMinutes dep arr = some ((a - d) % 1440) := by
  unfold durationMinutes
  rw [hd, ha]
  simp only [jsLt, jsAdd, jsSub]
  by_cases h : a < d
  · rw [if_pos (by simpa using h)]
    simp only [Option.some.injEq]
    omega
  · rw [if_neg (by simpa using h)]
    simp only [Option.some.injEq]
    omega

/-- When either time fails to parse, the internal duration is `NaN`. -/
theorem durationMinutes_nan {dep arr : String}
    (h : parseMinutes dep = none ∨ parseMinutes arr = none) :
    durationMinutes dep arr = none := by
  unfold durationMinutes
  rcases h with h | h
  · rw [h]
    simp [jsLt_none_right, jsSub_none_right]
  · rw [h]
    simp [jsLt_none_left, jsSub_none_left]

/-- Rendering of a parsed, non-negative duration value. -/
theorem calculateDuration_of_some {dep arr : String} {n : Nat}
    (h : durationMinutes dep arr = some (Int.ofNat n)) :
    calculateDuration dep arr = renderDuration n := by
  unfold calculateDuration renderDuration
  rw [h]
  simp only [jsFloorDiv60, jsMod60]
  have hfdiv : Int.fdiv (Int.ofNat n) 60 = Int.ofNat (n / 60) := (Int.ofNat_fdiv n 60).symm
  have htmod : Int.tmod (Int.ofNat n) 60 = Int.ofNat (n % 60) := rfl
  rw [hfdiv, htmod]
  by_cases hpos : 0 < n / 60
  · rw [if_pos (show jsLt (some 0) (some (Int.ofNat (n / 60))) = true by
      simp only [jsLt, decide_eq_true_eq]; exact Int.ofNat_pos.mpr hpos), if_pos hpos]
    rfl
  · rw [if_neg (show ¬jsLt (some 0) (some (Int.ofNat (n / 60))) = true by
      simp only [jsLt, decide_eq_true_eq]
      exact fun hc => hpos (Int.ofNat_pos.mp hc)), if_neg hpos]
    rfl

/-- Rendering of a `NaN` duration: the string `NaN分`, not an exception
and not a sentinel. -/
theorem calculateDuration_of_none {dep arr : String}
    (h : durationMinutes dep arr = none) :
    calculateDuration dep arr = "NaN分" := by
  unfold calculateDuration
  rw [h]
  simp only [jsFloorDiv60, jsMod60]
  rw [if_neg (by simp [jsLt])]
  rfl

/-! ## The route key is injective on hyphen-free departure ports -/

/-- The key built from a (departure, arrival) pair. -/
def keyOfPair (p : String × String) : String :=
  p.1 ++ "-" ++ p.2

theorem routeKey_eq_keyOfPair (r : FerryRoute) : routeKey r = keyOfPair (pairOf r) := rfl

theorem append_hyphen_inj {l1 l2 r1 r2 : List Char}
    (h1 : '-' ∉ l1) (h2 : '-' ∉ l2)
    (he : l1 ++ '-' :: r1 = l2 ++ '-' :: r2) : l1 = l2 ∧ r1 = r2 := by
  induction l1 generalizing l2 with
  | nil =>
    cases l2 with
    | nil => simpa using he
    | cons y ys =>
      simp only [List.nil_append, List.cons_append, List.cons.injEq] at he
      obtain ⟨hy, _⟩ := he
      subst hy
      exact absurd (List.mem_cons_self _ _) h2
  | cons x xs ih =>
    cases l2 with
    | nil =>
      simp only [List.cons_append, List.nil_append, List.cons.injEq] at he
      obtain ⟨hx, _⟩ := he
      subst hx
      exact absurd (List.mem_cons_self _ _) h1
    | cons y ys =>
      simp only [List.cons_append, List.cons.injEq] at he
      obtain ⟨hxy, htl⟩ := he
      subst hxy
      have h1t : '-' ∉ xs := fun hm => h1 (List.mem_cons_of_mem _ hm)
      have h2t : '-' ∉ ys := fun hm => h2 (List.mem_cons_of_mem _ hm)
      obtain ⟨ha, hb⟩ := ih h1t h2t htl
      exact ⟨by rw [ha], hb⟩

theorem keyOfPair_inj {p q : String × String}
    (h1 : '-' ∉ p.1.toList) (h2 : '-' ∉ q.1.toList)
    (he : keyOfPair p = keyOfPair q) : p = q := by
  have hdata : p.1.toList ++ '-' :: p.2.toList = q.1.toList ++ '-' :: q.2.toList := by
    have hc := congrArg String.toList he
    have hsh : ∀ s t : String, (s ++ "-" ++ t).toList = s.toList ++ '-' :: t.toList := by
      intro s t
      rw [show (s ++ "-" ++ t).toList = s.toList ++ ['-'] ++ t.toList from rfl,
        List.append_assoc]
      rfl
    rw [keyOfPair, keyOfPair, hsh, hsh] at hc
    exact hc
  obtain ⟨ha, hb⟩ := append_hyphen_inj h1 h2 hdata
  have hp1 : p.1 = q.1 := String.ext ha
  have hp2 : p.2 = q.2 := String.ext hb
  exact Prod.ext hp1 hp2

/-! ## First-seen accumulation commutes with injective maps -/

theorem foldl_seenStep_map {α β : Type} [DecidableEq α] [DecidableEq β] (f : α → β)
    (l : List α) :
    ∀ acc : List α,
      (∀ x ∈ acc ++ l, ∀ y ∈ acc ++ l, f x = f y → x = y) →
      (l.map f).foldl seenStep (acc.map f) = (l.foldl seenStep acc).map f := by
  induction l with
  | nil => intro acc _; rfl
  | cons x xs ih =>
    intro acc hinj
    have hxl : x ∈ acc ++ x :: xs := List.mem_append_right _ (List.mem_cons_self _ _)
    have hmem : (f x ∈ acc.map f) ↔ x ∈ acc := by
      constructor
      · intro h
        obtain ⟨y, hy, hxy⟩ := List.mem_map.mp h
        have := hinj y (List.mem_append_left _ hy) x hxl hxy
        exact this ▸ hy
      · exact fun h => List.mem_map_of_mem f h
    rw [List.map_cons, List.foldl_cons, List.foldl_cons]
    by_cases hx : x ∈ acc
    · rw [show seenStep acc x = acc from if_pos hx,
        show seenStep (acc.map f) (f x) = acc.map f from if_pos (hmem.mpr hx)]
      refine ih acc fun u hu v hv huv => hinj u ?_ v ?_ huv
      · rcases List.mem_append.mp hu with h | h
        · exact List.mem_append_left _ h
        · exact List.mem_append_right _ (List.mem_cons_of_mem _ h)
      · rcases List.mem_append.mp hv with h | h
        · exact List.mem_append_left _ h
        · exact List.mem_append_right _ (List.mem_cons_of_mem _ h)
    · rw [show seenStep acc x = acc ++ [x] from if_neg hx,
        show seenStep (acc.map f) (f x) = acc.map f ++ [f x] from
          if_neg (fun hc => hx (hmem.mp hc)),
        show (acc.map f) ++ [f x] = (acc ++ [x]).map f by simp]
      refine ih (acc ++ [x]) fun u hu v hv huv => hinj u ?_ v ?_ huv
      · rcases List.mem_append.mp hu with h | h
        · rcases List.mem_append.mp h with h2 | h2
          · exact List.mem_append_left _ h2
          · have : u = x := List.mem_singleton.mp h2
            exact this ▸ hxl
        · exact List.mem_append_right _ (List.mem_cons_of_mem _ h)
      · rcases List.mem_append.mp hv with h | h
        · rcases List.mem_append.mp h with h2 | h2
          · exact List.mem_append_left _ h2
          · have : v = x := List.mem_singleton.mp h2
            exact this ▸ hxl
        · exact List.mem_append_right _ (List.mem_cons_of_mem _ h)

theorem firstSeen_map {α β : Type} [DecidableEq α] [DecidableEq β] (f : α → β)
    (l : List α) (hinj : ∀ x ∈ l, ∀ y ∈ l, f x = f y → x = y) :
    firstSeen (l.map f) = (firstSeen l).map f := by
  unfold firstSeen
  exact foldl_seenStep_map f l [] (by simpa using hinj)

theorem map_inj_cancel {α β : Type} (f : α → β) :
    ∀ l1 l2 : List α,
      (∀ x ∈ l1, ∀ y ∈ l2, f x = f y → x = y) → l1.map f = l2.map f → l1 = l2 := by
  intro l1
  induction l1 with
  | nil =>
    intro l2 _ h
    cases l2 with
    | nil => rfl
    | cons y ys => simp at h
  | cons x xs ih =>
    intro l2 hinj h
    cases l2 with
    | nil => simp at h
    | cons y ys =>
      simp only [List.map_cons, List.cons.injEq] at h
      have hxy : x = y :=
        hinj x (List.mem_cons_self _ _) y (List.mem_cons_self _ _) h.1
      subst hxy
      have : xs = ys :=
        ih ys
          (fun u hu v hv huv =>
            hinj u (List.mem_cons_of_mem _ hu) v (List.mem_cons_of_mem _ hv) huv)
          h.2
      rw [this]

/-! ## Sum of group sizes -/

theorem sum_matching_lengths (ks : List String) :
    ∀ rs : List FerryRoute, ks.Nodup → (∀ r ∈ rs, routeKey r ∈ ks) →
      (ks.map (fun k => (matching rs k).length)).sum = rs.length := by
  induction ks with
  | nil =>
    intro rs _ hcov
    cases rs with
    | nil => rfl
    | cons r rs => exact absurd (hcov r (List.mem_cons_self _ _)) (by simp)
  | cons k ks ih =>
    intro rs hnd hcov
    rw [List.map_cons, List.sum_cons]
    have hsplit : (matching rs k).length +
        (rs.filter (fun r => !(routeKey r == k))).length = rs.length := by
      rw [matching]
      exact (List.length_eq_length_filter_add _).symm
    have hrest : ∀ k' ∈ ks,
        matching (rs.filter (fun r => !(routeKey r == k))) k' = matching rs k' := by
      intro k' hk'
      have hne : k' ≠ k := fun he => (List.nodup_cons.mp hnd).1 (he ▸ hk')
      rw [matching, matching, List.filter_filter]
      apply List.filter_congr
      intro r _
      by_cases hr : routeKey r = k'
      · have hbeq : (routeKey r == k') = true := beq_iff_eq.mpr hr
        have hbne : (routeKey r == k) = false := by
          rw [beq_eq_false_iff_ne, hr]
          exact hne
        rw [hbeq, hbne]
        rfl
      · have hbeq : (routeKey r == k') = false := beq_eq_false_iff_ne.mpr hr
        rw [hbeq]
        rfl
    have hcov2 : ∀ r ∈ rs.filter (fun r => !(routeKey r == k)), routeKey r ∈ ks := by
      intro r hr
      obtain ⟨hrs, hnk⟩ := List.mem_filter.mp hr
      rcases List.mem_cons.mp (hcov r hrs) with h | h
      · rw [h] at hnk; simp at hnk
      · exact h
    have hmapeq : ks.map (fun k' => (matching rs k').length) =
        ks.map (fun k' =>
          (matching (rs.filter (fun r => !(routeKey r == k))) k').length) :=
      List.map_congr_left fun k' hk' => by rw [hrest k' hk']
    rw [hmapeq, ih _ (List.nodup_cons.mp hnd).2 hcov2]
    omega

/-! ## Concrete fixtures used by witnesses and counterexamples -/

/-- Witness sailing: Takamatsu to Naoshima, 08:00 to 08:25. -/
def sailA : FerryRoute :=
  { departure_port := "高松", arrival_port := "直島"
    departure_time := "08:00", arrival_time := "08:25"
    company := "四国汽船", ship_type := "フェリー"
    allows_vehicles := true, allows_bicycles := true
    adult_fare := "¥1,220", child_fare := "¥610"
    operating_days := "毎日" }

/-- Witness sailing crossing midnight, on a limited-period service. -/
def sailB : FerryRoute :=
  { departure_port := "高松", arrival_port := "直島"
    departure_time := "23:50", arrival_time := "00:10"
    company := "豊島フェリー", ship_type := "高速船"
    allows_vehicles := false, allows_bicycles := true
    adult_fare := "¥1,220", child_fare := "¥610"
    operating_days := "期間限定" }

/-- Witness sailing with equal departure and arrival port and an
unparseable fare string. -/
def sailLoop : FerryRoute :=
  { departure_port := "宮浦", arrival_port := "宮浦"
    departure_time := "09:30", arrival_time := "10:15"
    company := "雌雄島海運", ship_type := "旅客船"
    allows_vehicles := false, allows_bicycles := false
    adult_fare := "お問い合わせください", child_fare := "お問い合わせください"
    operating_days := "土日" }

/-- Same path as `sailA` at the same clock time, different company. -/
def sailC : FerryRoute :=
  { departure_port := "高松", arrival_port := "直島"
    departure_time := "08:00", arrival_time := "08:45"
    company := "四国フェリー", ship_type := "フェリー"
    allows_vehicles := true, allows_bicycles := true
    adult_fare := "¥990", child_fare := "¥500"
    operating_days := "毎日" }

/-- Counterexample sailing with a zero-padded departure hour. -/
def sailPadded : FerryRoute :=
  { departure_port := "高松", arrival_port := "直島"
    departure_time := "10:00", arrival_time := "11:00"
    company := "四国汽船", ship_type := "フェリー"
    allows_vehicles := true, allows_bicycles := true
    adult_fare := "¥520", child_fare := "¥260"
    operating_days := "毎日" }

/-- Counterexample sailing with a single-digit departure hour. -/
def sailUnpadded : FerryRoute :=
  { departure_port := "高松", arrival_port := "直島"
    departure_time := "9:05", arrival_time := "10:00"
    company := "四国汽船", ship_type := "フェリー"
    allows_vehicles := true, allows_bicycles := true
    adult_fare := "¥520", child_fare := "¥260"
    operating_days := "毎日" }

/-- Counterexample sailing whose departure port contains a hyphen. -/
def sailHyphen1 : FerryRoute :=
  { departure_port := "a-b", arrival_port := "c"
    departure_time := "08:00", arrival_time := "09:00"
    company := "x", ship_type := "f"
    allows_vehicles := false, allows_bicycles := false
    adult_fare := "¥100", child_fare := "¥50"
    operating_days := "d" }

/-- Counterexample sailing with a distinct pair but a colliding key. -/
def sailHyphen2 : FerryRoute :=
  { departure_port := "a", arrival_port := "b-c"
    departure_time := "10:00", arrival_time := "11:00"
    company := "y", ship_type := "f"
    allows_vehicles := false, allows_bicycles := false
    adult_fare := "¥200", child_fare := "¥100"
    operating_days := "d" }

/-- The group that `groupRoutesByPath [sailA, sailB, sailLoop]` produces
for the Takamatsu to Naoshima path. -/
def groupTN : RouteGroup :=
  { routeKey := "高松-直島", departure := "高松", arrival := "直島"
    schedules := [sailA, sailB]
    companies := ["四国汽船", "豊島フェリー"]
    minPrice := some 1220, totalSchedules := 2 }

/-- The degenerate one-member group for the Miyanoura loop row. -/
def groupMiya : RouteGroup :=
  { routeKey := "宮浦-宮浦", departure := "宮浦", arrival := "宮浦"
    schedules := [sailLoop]
    companies := ["雌雄島海運"]
    minPrice := none, totalSchedules := 1 }

/-- The Takamatsu to Naoshima group built from the permuted input
`[sailB, sailA, sailLoop]`: same content, companies in the other
first-seen order. -/
def groupTN2 : RouteGroup :=
  { routeKey := "高松-直島", departure := "高松", arrival := "直島"
    schedules := [sailA, sailB]
    companies := ["豊島フェリー", "四国汽船"]
    minPrice := some 1220, totalSchedules := 2 }

/-! ## Conversion failure is genuine: `timeNaN` implies a `NaN` parse -/

theorem splitOnChar_ne_nil (sep : Char) (l : List Char) : splitOnChar sep l ≠ [] := by
  induction l with
  | nil => simp [splitOnChar]
  | cons c cs ih =>
    unfold splitOnChar
    by_cases h : c = sep
    · simp [h]
    · simp only [if_neg h]
      cases hs : splitOnChar sep cs <;> simp

theorem digit_toNat_range {c : Char} (h : c.isDigit = true) :
    48 ≤ c.toNat ∧ c.toNat ≤ 57 := by
  unfold Char.isDigit at h
  simp only [Bool.and_eq_true, decide_eq_true_eq] at h
  obtain ⟨h1, h2⟩ := h
  exact ⟨h1, h2⟩

theorem digit_not_white {c : Char} (h : c.isDigit = true) : isStrWhite c = false := by
  obtain ⟨h1, h2⟩ := digit_toNat_range h
  unfold isStrWhite
  simp only [Bool.or_eq_false_iff, beq_eq_false_iff_ne, ne_eq,
    Bool.and_eq_false_iff, decide_eq_false_iff_not]
  omega

theorem dropWhile_eq_self_of_not {p : Char → Bool} {l : List Char}
    (h : ∀ c ∈ l, p c = false) : l.dropWhile p = l := by
  cases l with
  | nil => rfl
  | cons c cs =>
    rw [List.dropWhile_cons, h c (List.mem_cons_self _ _)]
    simp

theorem takeWhile_eq_self_of_all {p : Char → Bool} (l : List Char)
    (h : ∀ c ∈ l, p c = true) : l.takeWhile p = l := by
  induction l with
  | nil => rfl
  | cons c cs ih =>
    rw [List.takeWhile_cons, h c (List.mem_cons_self _ _)]
    simp only [if_true]
    rw [ih fun d hd => h d (List.mem_cons_of_mem _ hd)]

theorem dropWhile_eq_nil_of_all {p : Char → Bool} (l : List Char)
    (h : ∀ c ∈ l, p c = true) : l.dropWhile p = [] := by
  induction l with
  | nil => rfl
  | cons c cs ih =>
    rw [List.dropWhile_cons, h c (List.mem_cons_self _ _)]
    simp only [if_true]
    exact ih fun d hd => h d (List.mem_cons_of_mem _ hd)

theorem trimWhite_of_digits {l : List Char} (hd : ∀ c ∈ l, c.isDigit = true) :
    trimWhite l = l := by
  have h1 : ∀ c ∈ l, isStrWhite c = false := fun c hc => digit_not_white (hd c hc)
  unfold trimWhite
  rw [dropWhile_eq_self_of_not h1,
    dropWhile_eq_self_of_not (fun c hc => h1 c (List.mem_reverse.mp hc)),
    List.reverse_reverse]

theorem unsignedDec_digits {l : List Char} (hne : l ≠ [])
    (hd : ∀ c ∈ l, c.isDigit = true) : unsignedDec l = true := by
  unfold unsignedDec
  rw [if_neg ?hinf]
  case hinf =>
    intro he
    have hI : ('I').isDigit = true := hd 'I' (by rw [he]; decide)
    exact absurd hI (by decide)
  rw [show afterDigits l = [] from dropWhile_eq_nil_of_all l hd]
  show intDigits l = true
  unfold intDigits
  rw [takeWhile_eq_self_of_all l hd]
  cases l with
  | nil => exact absurd rfl hne
  | cons c cs => rfl

theorem strNumericCore_digits {l : List Char} (hne : l ≠ [])
    (hd : ∀ c ∈ l, c.isDigit = true) : strNumericCore l = true := by
  cases l with
  | nil => exact absurd rfl hne
  | cons c rest =>
    have hc : c.isDigit = true := hd c (List.mem_cons_self _ _)
    unfold strNumericCore
    dsimp only
    rw [if_neg ?hpm]
    case hpm =>
      rintro (he | he) <;> (subst he; exact absurd hc (by decide))
    by_cases h0 : c = '0'
    · rw [if_pos h0]
      cases rest with
      | nil => rfl
      | cons d rest2 =>
        have hdd : d.isDigit = true :=
          hd d (List.mem_cons_of_mem _ (List.mem_cons_self _ _))
        dsimp only
        rw [if_neg ?hx, if_neg ?ho, if_neg ?hb]
        case hx => rintro (he | he) <;> (subst he; exact absurd hdd (by decide))
        case ho => rintro (he | he) <;> (subst he; exact absurd hdd (by decide))
        case hb => rintro (he | he) <;> (subst he; exact absurd hdd (by decide))
        exact unsignedDec_digits (List.cons_ne_nil _ _) hd
    · rw [if_neg h0]
      exact unsignedDec_digits (List.cons_ne_nil _ _) hd

theorem strNumeric_digits {l : List Char} (hne : l ≠ [])
    (hd : ∀ c ∈ l, c.isDigit = true) : strNumeric l = true := by
  unfold strNumeric
  rw [trimWhite_of_digits hd]
  exact strNumericCore_digits hne hd

/-- Where `Number` genuinely fails, the embedded `jsNumber` fails too, so
the model tracks the program on every input covered by `timeNaN`. -/
theorem jsNumber_none_of_strNaN {l : List Char} (h : strNaN l = true) :
    jsNumber l = none := by
  have hnum : strNumeric l = false := by
    unfold strNaN at h
    simpa using h
  unfold jsNumber
  by_cases he : l.isEmpty = true
  · exfalso
    rw [List.isEmpty_iff.mp he] at hnum
    exact absurd hnum (by decide)
  · rw [if_neg he]
    by_cases hall : l.all Char.isDigit = true
    · exfalso
      have hne : l ≠ [] := by
        intro h2
        rw [h2] at he
        exact he rfl
      rw [strNumeric_digits hne (fun c hc => List.all_eq_true.mp hall c hc)] at hnum
      cases hnum
    · rw [if_neg hall]

theorem jsAdd_none_right (x : Option Int) : jsAdd x none = none := by
  cases x <;> rfl

theorem jsMul_none_left (y : Option Int) : jsMul none y = none := by
  cases y <;> rfl

theorem parseMinutes_none_of_timeNaN {s : String} (h : timeNaN s = true) :
    parseMinutes s = none := by
  unfold parseMinutes
  cases hp : splitOnChar ':' s.toList with
  | nil => exact absurd hp (splitOnChar_ne_nil ':' s.toList)
  | cons p0 tl =>
    unfold timeNaN at h
    rw [hp] at h
    simp only [List.getD_cons_zero, List.getD_cons_succ, List.length_cons,
      Bool.or_eq_true, decide_eq_true_eq] at h
    simp only [List.map_cons, List.getD_cons_zero, List.getD_cons_succ]
    rcases h with (h1 | h2) | h3
    · rw [jsNumber_none_of_strNaN h1, jsMul_none_left]
      cases (tl.map jsNumber).getD 0 none <;> rfl
    · have htl : tl = [] := by
        have : tl.length = 0 := by omega
        exact List.length_eq_zero.mp this
      subst htl
      exact jsAdd_none_right _
    · cases tl with
      | nil => exact absurd h3 (by decide)
      | cons p1 tl2 =>
        simp only [List.getD_cons_zero] at h3
        rw [List.map_cons, List.getD_cons_zero, jsNumber_none_of_strNaN h3]
        exact jsAdd_none_right _

/-! ## Claim C2 -/

/-- C2: for every pair of time fields that parse as clock times (minute
values in `[0, 1440)`), the internal duration equals
`(arrival - departure) % 1440` minutes — when the arrival clock value is
numerically smaller than the departure one, 24 hours of minutes are added
before subtracting — the rendered result is exactly that many minutes, and
the duration is zero exactly when departure equals arrival (a valid
rendering `0分`, not an error). -/
theorem C2_duration_mod (dep arr : String) (d a : Int)
    (hd : parseMinutes dep = some d) (ha : parseMinutes arr = some a)
    (hd0 : 0 ≤ d) (hd1 : d < 1440) (ha0 : 0 ≤ a) (ha1 : a < 1440) :
    durationMinutes dep arr = some ((a - d) % 1440) ∧
    calculateDuration dep arr = renderDuration ((a - d) % 1440).toNat ∧
    ((a - d) % 1440 = 0 ↔ a = d) := by
  have h1 := durationMinutes_eq_emod hd ha hd0 hd1 ha0 ha1
  refine ⟨h1, ?_, by omega⟩
  apply calculateDuration_of_some
  rw [h1]
  have hnn : (0 : Int) ≤ (a - d) % 1440 := by omega
  exact congrArg some (by exact_mod_cast (Int.toNat_of_nonneg hnn).symm)

/-- Witness for C2 at the spec's scenario: 23:50 to 00:10 renders as 20
minutes, not -1430. -/
theorem C2_duration_mod_witness :
    parseMinutes "23:50" = some 1430 ∧ parseMinutes "00:10" = some 10 ∧
    calculateDuration "23:50" "00:10" = "20分" := by
  refine ⟨by decide, by decide, ?_⟩
  have h := C2_duration_mod "23:50" "00:10" 1430 10 (by decide) (by decide)
    (by decide) (by decide) (by decide) (by decide)
  rw [h.2.1]
  decide

/-! ## Claim C5 -/

/-- C5 counterexample: on malformed time strings `calculateDuration` does
not return the `'-'` unknown-duration sentinel; `NaN` propagates into the
rendered string instead. -/
theorem C5_counterexample :
    calculateDuration "25x" "abc" ≠ "-" ∧ calculateDuration "25x" "abc" = "NaN分" := by
  decide

/-- C5 (amended): for every pair of time strings either of which fails JS
numeric conversion — a colon component outside the ECMAScript
`StringNumericLiteral` grammar, or a missing minutes component, which is
what `timeNaN` decides — `calculateDuration` returns the string `NaN分`:
the `NaN` produced by `Number` (or by arithmetic on `undefined`) flows
through the arithmetic into the template literal.  It never returns the
`'-'` unknown-duration sentinel, which only the unreachable exception
branch produces; no exception escapes (the embedded body is total: none
of `split`, `map(Number)`, numeric operators or template literals throws
on string arguments).  Inputs whose components do convert — such as
`" 9:05"` or `"1.5:00"` — are outside `timeNaN` and outside this
statement. -/
theorem C5_malformed (dep arr : String)
    (h : timeNaN dep = true ∨ timeNaN arr = true) :
    calculateDuration dep arr = "NaN分" ∧ calculateDuration dep arr ≠ "-" := by
  have hn : parseMinutes dep = none ∨ parseMinutes arr = none := by
    rcases h with h | h
    · exact Or.inl (parseMinutes_none_of_timeNaN h)
    · exact Or.inr (parseMinutes_none_of_timeNaN h)
  have hc := calculateDuration_of_none (durationMinutes_nan hn)
  refine ⟨hc, ?_⟩
  rw [hc]
  decide

/-- Witness for C5: a colon-free string leaves the minutes component
`undefined`, so the real computation — and the model — give `NaN`. -/
theorem C5_malformed_witness : calculateDuration "830" "920" = "NaN分" :=
  (C5_malformed "830" "920" (Or.inl (by decide))).1

/-! ## Claim C8 -/

/-- C8: for well-formed clock times the duration is non-negative, and it
is invariant under rotating both times by the same number of minutes
modulo 1440; the duration is zero — before and after rotation — exactly
when the original departure and arrival minutes coincide. -/
theorem C8_rotation (dep arr dep2 arr2 : String) (d a k : Int)
    (hd : parseMinutes dep = some d) (ha : parseMinutes arr = some a)
    (hd0 : 0 ≤ d) (hd1 : d < 1440) (ha0 : 0 ≤ a) (ha1 : a < 1440)
    (hd2 : parseMinutes dep2 = some ((d + k) % 1440))
    (ha2 : parseMinutes arr2 = some ((a + k) % 1440)) :
    (∃ n : Int, durationMinutes dep arr = some n ∧ 0 ≤ n) ∧
    durationMinutes dep2 arr2 = durationMinutes dep arr ∧
    (durationMinutes dep arr = some 0 ↔ a = d) ∧
    (durationMinutes dep2 arr2 = some 0 ↔ a = d) := by
  have h1 := durationMinutes_eq_emod hd ha hd0 hd1 ha0 ha1
  have h2 := durationMinutes_eq_emod hd2 ha2 (by omega) (by omega) (by omega) (by omega)
  have hrot : ((a + k) % 1440 - (d + k) % 1440) % 1440 = (a - d) % 1440 := by
    omega
  have h2' : durationMinutes dep2 arr2 = some ((a - d) % 1440) := by rw [h2, hrot]
  refine ⟨⟨(a - d) % 1440, h1, by omega⟩, by rw [h1, h2'], ?_, ?_⟩
  · rw [h1]
    simp only [Option.some.injEq]
    omega
  · rw [h2']
    simp only [Option.some.injEq]
    omega

/-- Witness for C8: rotating 23:50 to 00:10 by 20 minutes gives 00:10 to
00:30, with the same 20-minute duration. -/
theorem C8_rotation_witness :
    durationMinutes "00:10" "00:30" = durationMinutes "23:50" "00:10" ∧
    (∃ n : Int, durationMinutes "23:50" "00:10" = some n ∧ 0 ≤ n) := by
  have h := C8_rotation "23:50" "00:10" "00:10" "00:30" 1430 10 20
    (by decide) (by decide) (by decide) (by decide) (by decide) (by decide)
    (by decide) (by decide)
  exact ⟨h.2.1, h.1⟩

/-! ## Claim C1 -/

/-- C1 counterexample: a hyphen inside a departure port makes two distinct
(departure, arrival) pairs collide on one routeKey, so their rows are
merged into a single group instead of one group per distinct pair in
first-encountered order. -/
theorem C1_counterexample :
    (groupRoutesByPath [sailHyphen1, sailHyphen2]).length = 1 ∧
    ¬ ((groupRoutesByPath [sailHyphen1, sailHyphen2]).map
        (fun g => (g.departure, g.arrival)) =
      firstSeen ([sailHyphen1, sailHyphen2].map pairOf)) := by
  decide

/-- C1 (amended): provided no departure port contains the key separator
`'-'` (true of real port names, and exactly what makes the concatenated
routeKey injective on pairs), `groupRoutesByPath` emits exactly one group
per distinct (departure, arrival) pair of the input, in first-encountered
pair order; a row lies in a group's schedules exactly when the group
carries the row's own pair — degenerate rows with equal departure and
arrival ports included — and every row lands in some group. -/
theorem C1_grouping (routes : List FerryRoute)
    (hsep : ∀ r ∈ routes, '-' ∉ r.departure_port.toList) :
    ((groupRoutesByPath routes).map (fun g => (g.departure, g.arrival)) =
      firstSeen (routes.map pairOf)) ∧
    (∀ r ∈ routes, ∀ g ∈ groupRoutesByPath routes,
      (r ∈ g.schedules ↔ (g.departure, g.arrival) = pairOf r)) ∧
    (∀ r ∈ routes, ∃ g ∈ groupRoutesByPath routes, r ∈ g.schedules) := by
  have hinj : ∀ p ∈ routes.map pairOf, ∀ q ∈ routes.map pairOf,
      keyOfPair p = keyOfPair q → p = q := by
    intro p hp q hq he
    obtain ⟨rp, hrp, hple⟩ := List.mem_map.mp hp
    obtain ⟨rq, hrq, hqle⟩ := List.mem_map.mp hq
    refine keyOfPair_inj ?_ ?_ he
    · rw [← hple]; exact hsep rp hrp
    · rw [← hqle]; exact hsep rq hrq
  have hpair : ∀ g ∈ groupRoutesByPath routes,
      (g.departure, g.arrival) ∈ routes.map pairOf ∧
      keyOfPair (g.departure, g.arrival) = g.routeKey := by
    intro g hg
    obtain ⟨_, _, _, _, r0, rest, hm, hdep, harr⟩ := output_group_spec hg
    have hr0m : r0 ∈ matching routes g.routeKey := by
      rw [hm]; exact List.mem_cons_self _ _
    have hr0r : r0 ∈ routes := (List.mem_filter.mp hr0m).1
    have hr0k : routeKey r0 = g.routeKey := mem_matching_key hr0m
    have hpe : (g.departure, g.arrival) = pairOf r0 := by
      rw [hdep, harr]; rfl
    constructor
    · rw [hpe]; exact List.mem_map_of_mem _ hr0r
    · rw [hpe, ← routeKey_eq_keyOfPair]; exact hr0k
  have hmain : (groupRoutesByPath routes).map (fun g => (g.departure, g.arrival)) =
      firstSeen (routes.map pairOf) := by
    apply map_inj_cancel keyOfPair
    · intro x hx y hy he
      have hxm : x ∈ routes.map pairOf := by
        obtain ⟨g, hg, hpe⟩ := List.mem_map.mp hx
        exact hpe ▸ (hpair g hg).1
      exact hinj x hxm y ((mem_firstSeen _ _).mp hy) he
    · rw [List.map_map]
      have h1 : (groupRoutesByPath routes).map
          (keyOfPair ∘ fun g => (g.departure, g.arrival)) =
          (groupRoutesByPath routes).map (fun g => g.routeKey) :=
        List.map_congr_left fun g hg => (hpair g hg).2
      rw [h1, output_keys]
      have h2 : routes.map routeKey = (routes.map pairOf).map keyOfPair := by
        rw [List.map_map]; rfl
      rw [h2, firstSeen_map keyOfPair _ hinj]
  refine ⟨hmain, ?_, ?_⟩
  · intro r hr g hg
    obtain ⟨hsch, _, _, _, r0, rest, hm, hdep, harr⟩ := output_group_spec hg
    obtain ⟨hpm, hpk⟩ := hpair g hg
    constructor
    · intro hmem
      rw [hsch, List.mem_insertionSort] at hmem
      have hk : routeKey r = g.routeKey := mem_matching_key hmem
      have hke : keyOfPair (g.departure, g.arrival) = keyOfPair (pairOf r) := by
        rw [hpk, ← hk, routeKey_eq_keyOfPair]
      exact hinj _ hpm _ (List.mem_map_of_mem _ hr) hke
    · intro hpe
      rw [hsch, List.mem_insertionSort]
      refine List.mem_filter.mpr ⟨hr, ?_⟩
      rw [beq_iff_eq, routeKey_eq_keyOfPair, ← hpe, hpk]
  · intro r hr
    have hkmem : routeKey r ∈ (groupRoutesByPath routes).map (fun g => g.routeKey) := by
      rw [output_keys, mem_firstSeen]
      exact List.mem_map_of_mem _ hr
    obtain ⟨g, hg, hk⟩ := List.mem_map.mp hkmem
    refine ⟨g, hg, ?_⟩
    obtain ⟨hsch, _⟩ := output_group_spec hg
    rw [hsch, List.mem_insertionSort]
    exact List.mem_filter.mpr ⟨hr, beq_iff_eq.mpr hk.symm⟩

/-- Witness for C1 on hyphen-free Japanese port names, including a
degenerate row with equal ports: one group per pair in first-seen
order. -/
theorem C1_grouping_witness :
    (groupRoutesByPath [sailA, sailB, sailLoop]).map
      (fun g => (g.departure, g.arrival)) =
    firstSeen ([sailA, sailB, sailLoop].map pairOf) :=
  (C1_grouping [sailA, sailB, sailLoop] (by decide)).1

/-! ## Claim C3 -/

/-- The parseable fares of a list of sailings: the digit-stripped values
of those members whose adult_fare contains at least one digit. -/
def parsedFares (l : List FerryRoute) : List Nat :=
  l.filterMap (fun s => parseFare s.adult_fare)

/-- C3: a group's minPrice is the minimum of the digit-stripped adult
fares over exactly those members whose fare contains a digit; members
without digits contribute nothing (and never abort the fold), and a group
with no parseable fare at all keeps the `Infinity` sentinel (`none`) —
never 0 and never a failure. -/
theorem C3_minPrice (routes : List FerryRoute) (g : RouteGroup)
    (hg : g ∈ groupRoutesByPath routes) :
    (g.minPrice = none ↔ parsedFares g.schedules = []) ∧
    (∀ n : Nat, g.minPrice = some n ↔
      n ∈ parsedFares g.schedules ∧ ∀ m ∈ parsedFares g.schedules, n ≤ m) := by
  obtain ⟨hsch, _, _, hmin, _⟩ := output_group_spec hg
  have hperm : (parsedFares g.schedules).Perm
      (parsedFares (matching routes g.routeKey)) := by
    apply List.Perm.filterMap
    rw [hsch]
    exact List.perm_insertionSort _ _
  have hfm : ((matching routes g.routeKey).map
      (fun r => parseFare r.adult_fare)).filterMap id =
      parsedFares (matching routes g.routeKey) := by
    simp [parsedFares]
  constructor
  · rw [hmin, foldl_minStep_none_iff, hfm]
    constructor
    · intro h
      exact List.Perm.eq_nil (h ▸ hperm)
    · intro h
      exact List.Perm.eq_nil (h ▸ hperm.symm)
  · intro n
    rw [hmin, foldl_minStep_some_iff, hfm]
    constructor
    · rintro ⟨h1, h2⟩
      exact ⟨hperm.mem_iff.mpr h1, fun m hm => h2 m (hperm.mem_iff.mp hm)⟩
    · rintro ⟨h1, h2⟩
      exact ⟨hperm.mem_iff.mp h1, fun m hm => h2 m (hperm.mem_iff.mpr hm)⟩

/-- Witness for C3: the two-fare group has minPrice 1220; the group whose
only fare has no digit keeps the sentinel. -/
theorem C3_minPrice_witness :
    groupTN.minPrice = some 1220 ∧ groupMiya.minPrice = none := by
  constructor
  · exact ((C3_minPrice [sailA, sailB, sailLoop] groupTN (by decide)).2 1220).mpr
      ⟨by decide, by decide⟩
  · exact (C3_minPrice [sailA, sailB, sailLoop] groupMiya (by decide)).1.mpr (by decide)

/-! ## Claim C4 -/

/-- C4 counterexample: with the stored single-digit-hour time `9:05`, the
colon-stripped string comparison puts `10:00` before `9:05`, so the
group's schedules are not sorted by minute of day as the claim states. -/
theorem C4_counterexample :
    ¬ (∀ g ∈ groupRoutesByPath [sailUnpadded, sailPadded],
        g.schedules.Sorted
          (fun x y => minuteOfDay x.departure_time ≤ minuteOfDay y.departure_time)) := by
  decide

/-- C4 (amended): every output group's schedules are sorted ascending by
the comparison the code actually performs — the departure time with its
first colon removed, compared as a string — and whenever all departure
times of the group are zero-padded `HH:MM`, that order coincides with
minute-of-day order; only stored single-digit hours such as `9:05` break
the coincidence. -/
theorem C4_sorted (routes : List FerryRoute) (g : RouteGroup)
    (hg : g ∈ groupRoutesByPath routes) :
    g.schedules.Sorted scheduleLe ∧
    ((∀ s ∈ g.schedules, isPaddedTime s.departure_time = true) →
      g.schedules.Sorted
        (fun x y => minuteOfDay x.departure_time ≤ minuteOfDay y.departure_time)) := by
  obtain ⟨hsch, _⟩ := output_group_spec hg
  have hsorted : g.schedules.Sorted scheduleLe := by
    rw [hsch]
    exact List.sorted_insertionSort _ _
  refine ⟨hsorted, fun hpad => ?_⟩
  refine List.Pairwise.imp_of_mem ?_ hsorted
  intro a b ha hb hle
  exact (scheduleLe_iff_minute (hpad a ha) (hpad b hb)).mp hle

/-- Witness for C4 on zero-padded times: the Takamatsu group is sorted by
minute of day. -/
theorem C4_sorted_witness :
    groupTN.schedules.Sorted
      (fun x y => minuteOfDay x.departure_time ≤ minuteOfDay y.departure_time) :=
  (C4_sorted [sailA, sailB, sailLoop] groupTN (by decide)).2 (by decide)

/-! ## Claim C7 -/

/-- C7: the schedule counts of the groups partition the input — summing
either the length of each group's schedules list or its totalSchedules
counter over all groups gives back exactly the number of input rows. -/
theorem C7_total (routes : List FerryRoute) :
    ((groupRoutesByPath routes).map (fun g => g.schedules.length)).sum =
      routes.length ∧
    ((groupRoutesByPath routes).map (fun g => g.totalSchedules)).sum =
      routes.length := by
  have hcov : ∀ r ∈ routes, routeKey r ∈ firstSeen (routes.map routeKey) :=
    fun r hr => (mem_firstSeen _ _).mpr (List.mem_map_of_mem _ hr)
  have hsum := sum_matching_lengths (firstSeen (routes.map routeKey)) routes
    (nodup_firstSeen _) hcov
  constructor
  · have h1 : (groupRoutesByPath routes).map (fun g => g.schedules.length) =
        ((groupRoutesByPath routes).map (fun g => g.routeKey)).map
          (fun k => (matching routes k).length) := by
      rw [List.map_map]
      refine List.map_congr_left fun g hg => ?_
      obtain ⟨hsch, _⟩ := output_group_spec hg
      show g.schedules.length = (matching routes g.routeKey).length
      rw [hsch, List.length_insertionSort]
    rw [h1, output_keys, hsum]
  · have h2 : (groupRoutesByPath routes).map (fun g => g.totalSchedules) =
        ((groupRoutesByPath routes).map (fun g => g.routeKey)).map
          (fun k => (matching routes k).length) := by
      rw [List.map_map]
      refine List.map_congr_left fun g hg => ?_
      obtain ⟨_, htot, _⟩ := output_group_spec hg
      exact htot
    rw [h2, output_keys, hsum]

/-! ## Claim C6 -/

/-- C6 counterexample: two sailings of the same pair at the same clock
time but different companies; reversing the input changes the groups'
content as lists (stable sort keeps arrival order of equal keys, and the
companies list records first-seen order), so the groups are not identical
as the claim states. -/
theorem C6_counterexample :
    [sailA, sailC].Perm [sailC, sailA] ∧
    (groupRoutesByPath [sailA, sailC]).map
        (fun g => (g.routeKey, g.schedules, g.companies)) ≠
      (groupRoutesByPath [sailC, sailA]).map
        (fun g => (g.routeKey, g.schedules, g.companies)) := by
  exact ⟨List.Perm.swap sailC sailA [], by decide⟩

/-- C6 (amended): grouping is order-independent up to the orders the code
genuinely derives from the input sequence: permuting the input yields
groups for exactly the same route keys, and the groups of a common key
have schedule lists that are permutations of each other (each still
sorted by the departure-time comparator), the same companies as sets,
identical minPrice and identical totalSchedules.  (The lists themselves
may differ: ties in the stable sort and the first-seen companies order
follow the input order, as the counterexample shows.) -/
theorem C6_perm_invariance (routes routes2 : List FerryRoute)
    (hperm : routes.Perm routes2) :
    (∀ k : String, (∃ g ∈ groupRoutesByPath routes, g.routeKey = k) ↔
        (∃ g2 ∈ groupRoutesByPath routes2, g2.routeKey = k)) ∧
    (∀ g ∈ groupRoutesByPath routes, ∀ g2 ∈ groupRoutesByPath routes2,
      g.routeKey = g2.routeKey →
        g.schedules.Perm g2.schedules ∧
        g2.schedules.Sorted scheduleLe ∧
        (∀ c, c ∈ g.companies ↔ c ∈ g2.companies) ∧
        g.minPrice = g2.minPrice ∧
        g.totalSchedules = g2.totalSchedules) := by
  constructor
  · intro k
    have h1 : ∀ rs : List FerryRoute,
        (∃ g ∈ groupRoutesByPath rs, g.routeKey = k) ↔
          k ∈ (groupRoutesByPath rs).map (fun g => g.routeKey) := by
      intro rs
      rw [List.mem_map]
    rw [h1 routes, h1 routes2, output_keys, output_keys, mem_firstSeen,
      mem_firstSeen]
    exact (hperm.map routeKey).mem_iff
  · intro g hg g2 hg2 hk
    obtain ⟨hsch, htot, hcomp, hmin, _⟩ := output_group_spec hg
    obtain ⟨hsch2, htot2, hcomp2, hmin2, _⟩ := output_group_spec hg2
    have hmm : (matching routes g.routeKey).Perm (matching routes2 g2.routeKey) := by
      rw [← hk]
      exact hperm.filter _
    have hsp : g.schedules.Perm g2.schedules := by
      rw [hsch, hsch2]
      exact ((List.perm_insertionSort _ _).trans hmm).trans
        (List.perm_insertionSort _ _).symm
    refine ⟨hsp, ?_, ?_, ?_, ?_⟩
    · rw [hsch2]
      exact List.sorted_insertionSort _ _
    · intro c
      rw [hcomp, hcomp2, mem_firstSeen, mem_firstSeen]
      exact (hmm.map _).mem_iff
    · rw [hmin, hmin2]
      rcases hcase : ((matching routes2 g2.routeKey).map
          (fun r => parseFare r.adult_fare)).foldl minStep none with _ | n
      · rw [hcase, foldl_minStep_none_iff]
        rw [foldl_minStep_none_iff] at hcase
        have hp := (hmm.map (fun r => parseFare r.adult_fare)).filterMap id
        exact List.Perm.eq_nil (hcase ▸ hp)
      · rw [hcase, foldl_minStep_some_iff]
        rw [foldl_minStep_some_iff] at hcase
        have hp := (hmm.map (fun r => parseFare r.adult_fare)).filterMap id
        exact ⟨hp.mem_iff.mpr hcase.1, fun m hm => hcase.2 m (hp.mem_iff.mp hm)⟩
    · rw [htot, htot2]
      exact hmm.length_eq

/-- Witness for C6: the original and swapped inputs yield Takamatsu
groups with permuted schedules and identical minPrice and counts. -/
theorem C6_perm_invariance_witness :
    groupTN.schedules.Perm groupTN2.schedules ∧
    groupTN.minPrice = groupTN2.minPrice ∧
    groupTN.totalSchedules = groupTN2.totalSchedules := by
  have h := (C6_perm_invariance [sailA, sailB, sailLoop] [sailB, sailA, sailLoop]
    (List.Perm.swap sailB sailA [sailLoop])).2 groupTN (by decide) groupTN2
    (by decide) rfl
  exact ⟨h.1, h.2.2.2.1, h.2.2.2.2⟩

/-! ## Claim C9 -/

/-- C9: a group's limited-period flag is set exactly when some member
schedule's operating_days equals the reserved marker `期間限定`; the flag
is derived for display only — grouping never drops a row on account of
its operating_days, as every input row of the group's key is in its
schedules. -/
theorem C9_limited (routes : List FerryRoute) (g : RouteGroup)
    (hg : g ∈ groupRoutesByPath routes) :
    (isLimitedPeriod g = true ↔ ∃ s ∈ g.schedules, s.operating_days = "期間限定") ∧
    (∀ r ∈ routes, routeKey r = g.routeKey → r ∈ g.schedules) := by
  constructor
  · rw [isLimitedPeriod, List.any_eq_true]
    constructor
    · rintro ⟨s, hs, hb⟩
      exact ⟨s, hs, beq_iff_eq.mp hb⟩
    · rintro ⟨s, hs, he⟩
      exact ⟨s, hs, beq_iff_eq.mpr he⟩
  · intro r hr hk
    obtain ⟨hsch, _⟩ := output_group_spec hg
    rw [hsch, List.mem_insertionSort]
    exact List.mem_filter.mpr ⟨hr, beq_iff_eq.mpr hk⟩

/-- Witness for C9: the Takamatsu group contains the limited-period
sailing, so its flag is set. -/
theorem C9_limited_witness : isLimitedPeriod groupTN = true :=
  ((C9_limited [sailA, sailB, sailLoop] groupTN (by decide)).1).mpr
    ⟨sailB, by decide, by decide⟩

/-! ## Claim C10 -/

/-- C10: in every output group, totalSchedules equals the length of the
schedules list, and the companies list is duplicate-free and is exactly
the first-seen-order deduplication of its members' companies in input
(first-encountered) order; as a set it is exactly the companies of the
group's members. -/
theorem C10_invariants (routes : List FerryRoute) (g : RouteGroup)
    (hg : g ∈ groupRoutesByPath routes) :
    g.totalSchedules = g.schedules.length ∧
    g.companies.Nodup ∧
    g.companies = firstSeen ((matching routes g.routeKey).map (fun r => r.company)) ∧
    (∀ c, c ∈ g.companies ↔ c ∈ g.schedules.map (fun s => s.company)) := by
  obtain ⟨hsch, htot, hcomp, _, _⟩ := output_group_spec hg
  refine ⟨?_, ?_, hcomp, ?_⟩
  · rw [htot, hsch, List.length_insertionSort]
  · rw [hcomp]
    exact nodup_firstSeen _
  · intro c
    rw [hcomp, mem_firstSeen]
    have hp : ((matching routes g.routeKey).map (fun r => r.company)).Perm
        (g.schedules.map (fun s => s.company)) := by
      apply List.Perm.map
      rw [hsch]
      exact (List.perm_insertionSort _ _).symm
    exact hp.mem_iff

/-- Witness for C10 at the concrete three-row input. -/
theorem C10_invariants_witness :
    groupTN.totalSchedules = groupTN.schedules.length ∧ groupTN.companies.Nodup := by
  have h := C10_invariants [sailA, sailB, sailLoop] groupTN (by decide)
  exact ⟨h.1, h.2.1⟩
